import Mathlib

/-!
# cob_control: `SimpsonIntegrator` (cob_twist_controller/utils/simpson_integrator.h)
and `TrajectoryProfileGeneratorLin` (cob_cartesian_controller)

A shallow embedding of the velocity integrator, and of the profile generator as
far as its header goes.

* `double`, `ros::Time` and `ros::Duration::toSec()` are exact rationals (`ℚ`).
* `std::vector<double>` and `KDL::JntArray` are `List ℚ`; every indexed access
  `v[i]` / `q(i)` of the source is a checked access `v[i]?`, and a function whose
  source indexes a container returns `Option`: `none` means that some index was
  out of bounds.
* `ros::Time::now()` is the explicit argument `now`.
* `uint8_t dof_` is a natural number; the source only compares loop counters
  against it, so no arithmetic on it can wrap.
* The smoother classes of `moving_average.h` are not part of the sources at hand;
  the integrator is parameterised by their interface (`MovingAvgBase`).
-/

namespace CobControl

/-- Interface of `MovingAvgBase_double_t` as used by `SimpsonIntegrator`:
`create factor` is the constructor call `new MovingAvgExponential_double_t(factor)`,
`calcMovingAverage s = some a` means that the call returned `true` and wrote `a`
to its reference argument, `none` means that it returned `false`. -/
structure MovingAvgBase where
  /-- The state of one smoother object. -/
  S : Type
  /-- Constructor. -/
  create : ℚ → S
  /-- Method `void addElement(double)`. -/
  addElement : S → ℚ → S
  /-- Method `bool calcMovingAverage(double&) const`. -/
  calcMovingAverage : S → Option ℚ
  /-- Method `void reset()`. -/
  reset : S → S

/-- One exponential smoother object: its decay factor (fixed at construction),
the running average and the number of samples seen since construction or the
last reset. -/
structure ExpSmoother where
  factor : ℚ
  average : ℚ
  count : Nat
  deriving DecidableEq

/-- Modelled from the spec: the `ExponentialSmoother` of `moving_average.h`
(section 4.3), which is not among the sources. `addElement` records the sample
and updates the running average with the fixed decay factor (newest sample
weighted by `factor`, prior average by its complement); `calcMovingAverage` is
valid once `warmup` samples (the minimum warm-up sample count, which the spec
leaves open) have been observed since construction or the last reset; `reset`
clears the running average and the warm-up counter and leaves the factor alone. -/
def MovingAvgExponential (warmup : Nat) : MovingAvgBase where
  S := ExpSmoother
  create := fun factor => ⟨factor, 0, 0⟩
  addElement := fun s x =>
    { s with average := s.factor * x + (1 - s.factor) * s.average, count := s.count + 1 }
  calcMovingAverage := fun s => if warmup ≤ s.count then some s.average else none
  reset := fun s => { s with average := 0, count := 0 }

/-- The loop `for (i = 0; i < n; ++i) body(i)` over a state `σ`, where an
iteration may fail (out-of-bounds access). -/
def forLoop {σ : Type} (body : Nat → σ → Option σ) : Nat → σ → Option σ
  | 0, s => some s
  | n + 1, s => (forLoop body n s).bind (body n)

/-- Profile-shape selector of a motion request. -/
inductive ProfileType where
  | ramp
  | sinoid
  deriving DecidableEq

/-- Modelled from the spec: the part of `cob_cartesian_controller::MoveLinStruct`
(`cartesian_controller_data_types.h`, not among the sources) that the
`MotionRequest` of section 3 names: velocity limit, acceleration limit,
profile-shape selector and optional fixed duration. -/
structure MoveLinStruct where
  vel : ℚ
  accl : ℚ
  profile_type : ProfileType
  duration : Option ℚ

/-- Private members of `class TrajectoryProfileGeneratorLin`. -/
structure TrajectoryProfileGeneratorLin where
  update_rate_ : ℚ
  t_ipo_ : ℚ

/-- The private methods `calculateRampProfile` and `calculateSinoidProfile`, which
the header declares and whose bodies are not among the sources: a result is the
content of `path_matrix` and the updated `move_lin`, `none` is the return value
`false`. -/
structure ProfileAlgorithms where
  calculateRampProfile : TrajectoryProfileGeneratorLin → ℚ → ℚ → ℚ → ℚ → MoveLinStruct →
    Option (List (List ℚ) × MoveLinStruct)
  calculateSinoidProfile : TrajectoryProfileGeneratorLin → ℚ → ℚ → ℚ → ℚ → MoveLinStruct →
    Option (List (List ℚ) × MoveLinStruct)

namespace TrajectoryProfileGeneratorLin

/-- Constructor `TrajectoryProfileGeneratorLin(double update_rate)`; for
`update_rate = 0` the double `1.0/update_rate` is infinite where the rational
is 0. -/
def new (update_rate : ℚ) : TrajectoryProfileGeneratorLin where
  update_rate_ := update_rate
  t_ipo_ := 1 / update_rate

/-- Modelled from the spec: `calculateProfile`, declared in the header, its body
not among the sources (section 4.1): failure without result when `v_max <= 0`,
`a_max <= 0` or `update_rate <= 0`; otherwise the profile-shape selector of the
request picks the Ramp or the Sinoid algorithm, which may fail in its turn (a
fixed duration too short for the limits). -/
def calculateProfile (alg : ProfileAlgorithms) (gen : TrajectoryProfileGeneratorLin)
    (Se Se_roll Se_pitch Se_yaw : ℚ) (move_lin : MoveLinStruct) :
    Option (List (List ℚ) × MoveLinStruct) :=
  if move_lin.vel ≤ 0 ∨ move_lin.accl ≤ 0 ∨ gen.update_rate_ ≤ 0 then none
  else
    match move_lin.profile_type with
    | ProfileType.ramp => alg.calculateRampProfile gen Se Se_roll Se_pitch Se_yaw move_lin
    | ProfileType.sinoid => alg.calculateSinoidProfile gen Se Se_roll Se_pitch Se_yaw move_lin

end TrajectoryProfileGeneratorLin

/-- Stand-ins for the two profile algorithms that always succeed, with the two
end points of the linear path as only samples. -/
def ProfileAlgorithms.endPoints : ProfileAlgorithms where
  calculateRampProfile := fun _ Se _ _ _ move_lin => some ([[0, Se]], move_lin)
  calculateSinoidProfile := fun _ Se _ _ _ move_lin => some ([[0, Se]], move_lin)

/-- Private members of `class SimpsonIntegrator`. -/
structure SimpsonIntegrator (M : MovingAvgBase) where
  ma_vel_ : List M.S
  ma_ : List M.S
  dof_ : Nat
  vel_last_ : List ℚ
  vel_before_last_ : List ℚ
  last_update_time_ : ℚ
  last_period_ : ℚ

namespace SimpsonIntegrator

variable {M : MovingAvgBase}

/-- Constructor `SimpsonIntegrator(const uint8_t dof)`: one velocity smoother and
one position smoother per joint, both built with factor `0.2`; the vectors
`vel_last_` and `vel_before_last_` start empty. -/
def new (M : MovingAvgBase) (dof : Nat) : SimpsonIntegrator M where
  ma_vel_ := List.replicate dof (M.create (2 / 10))
  ma_ := List.replicate dof (M.create (2 / 10))
  dof_ := dof
  vel_last_ := []
  vel_before_last_ := []
  last_update_time_ := 0
  last_period_ := 0

/-- Body of the loop of `resetIntegration`:
`ma_vel_[i]->reset(); ma_[i]->reset();`. -/
def resetBody (M : MovingAvgBase) (i : Nat) (s : List M.S × List M.S) :
    Option (List M.S × List M.S) :=
  match s.1[i]?, s.2[i]? with
  | some mv, some mp => some (s.1.set i (M.reset mv), s.2.set i (M.reset mp))
  | _, _ => none

/-- Method `void resetIntegration()`. -/
def resetIntegration (st : SimpsonIntegrator M) : Option (SimpsonIntegrator M) :=
  (forLoop (resetBody M) st.dof_ (st.ma_vel_, st.ma_)).map fun s =>
    { st with vel_last_ := [], vel_before_last_ := [], ma_vel_ := s.1, ma_ := s.2 }

/-- The velocity used for a joint in one cycle: the smoother's average when
`calcMovingAverage` succeeds after the sample was added, else the raw sample. -/
def smoothedVel (M : MovingAvgBase) (m : M.S) (x : ℚ) : ℚ :=
  match M.calcMovingAverage (M.addElement m x) with
  | some avg_vel => avg_vel
  | none => x

/-- Body of the loop "smooth incoming velocities"; the state is
`(ma_vel_, q_dot_avg)`. -/
def smoothBody (M : MovingAvgBase) (q_dot_ik : List ℚ) (i : Nat)
    (s : List M.S × List ℚ) : Option (List M.S × List ℚ) :=
  match s.1[i]?, q_dot_ik[i]? with
  | some m, some x =>
    if i < s.2.length then
      some (s.1.set i (M.addElement m x), s.2.set i (smoothedVel M m x))
    else none
  | _, _ => none

/-- The expression assigned to `integration_value`. -/
def integration_value (period v2 v1 v0 q : ℚ) : ℚ :=
  period / 6 * (v2 + 4 * (v2 + v1) + v2 + v1 + v0) + q

/-- Body of the Simpson loop; the state is `(ma_, pos, vel)`. -/
def simpsonBody (M : MovingAvgBase) (period : ℚ) (vel_before_last vel_last q_dot_avg
    current_q : List ℚ) (i : Nat) (s : List M.S × List ℚ × List ℚ) :
    Option (List M.S × List ℚ × List ℚ) :=
  match vel_before_last[i]?, vel_last[i]?, q_dot_avg[i]?, current_q[i]?, s.1[i]? with
  | some v2, some v1, some v0, some q, some m =>
    let m1 := M.addElement m (integration_value period v2 v1 v0 q)
    match M.calcMovingAverage m1 with
    | some avg => some (s.1.set i m1, s.2.1 ++ [avg], s.2.2 ++ [v0])
    | none => some (s.1.set i m1, s.2.1, s.2.2)
  | _, _, _, _, _ => none

/-- Body of the two copy loops `dst.push_back(src[i])`. -/
def pushBody (src : List ℚ) (i : Nat) (dst : List ℚ) : Option (List ℚ) :=
  (src[i]?).map fun x => dst ++ [x]

/-- Method `std::vector<double>::clear()`. -/
def clear (_ : List ℚ) : List ℚ := []

/-- What one call of `updateIntegration` yields: the returned flag, the two
output vectors and the new state of the object. -/
structure UpdateResult (M : MovingAvgBase) where
  value_valid : Bool
  pos : List ℚ
  vel : List ℚ
  state : SimpsonIntegrator M

/-- The part of `updateIntegration` that follows the staleness check: `st` is
the object after the conditional reset, `pos` and `vel` are the cleared output
vectors, `period` is the local variable of that name. -/
def updateCycle (st : SimpsonIntegrator M) (q_dot_ik current_q pos vel : List ℚ)
    (now period : ℚ) : Option (UpdateResult M) :=
  -- smooth incoming velocities; `KDL::JntArray q_dot_avg(dof_)` is zero-initialised
  (forLoop (smoothBody M q_dot_ik) st.dof_
      (st.ma_vel_, List.replicate st.dof_ 0)).bind fun s1 =>
  let q_dot_avg := s1.2
  (if st.vel_before_last_ ≠ [] then
      (forLoop (simpsonBody M period st.vel_before_last_ st.vel_last_ q_dot_avg current_q)
        st.dof_ (st.ma_, pos, vel)).map fun s2 => (true, s2)
    else some (false, st.ma_, pos, vel)).bind fun r2 =>
  -- continuously shift the vectors for simpson integration
  (forLoop (pushBody st.vel_last_) st.vel_last_.length []).bind fun vbl =>
  (forLoop (pushBody q_dot_avg) q_dot_avg.length []).map fun vl =>
    { value_valid := r2.1
      pos := r2.2.2.1
      vel := r2.2.2.2
      state :=
        { st with
          ma_vel_ := s1.1
          ma_ := r2.2.1
          vel_before_last_ := vbl
          vel_last_ := vl
          last_update_time_ := now
          last_period_ := period } }

/-- Method `bool updateIntegration(q_dot_ik, current_q, pos, vel)`; `pos` and
`vel` are the contents of the output vectors on entry, `now` is the value of
`ros::Time::now()`. -/
def updateIntegration (st : SimpsonIntegrator M) (q_dot_ik current_q pos vel : List ℚ)
    (now : ℚ) : Option (UpdateResult M) :=
  let period := now - st.last_update_time_
  (if period > 1 / 2 then resetIntegration st else some st).bind fun st1 =>
    updateCycle st1 q_dot_ik current_q (clear pos) (clear vel) now period

/-- The class invariant: one smoother pair per joint, and each history vector is
empty or has one entry per joint, `vel_before_last_` being empty whenever
`vel_last_` is. -/
def WellFormed (st : SimpsonIntegrator M) : Prop :=
  st.ma_vel_.length = st.dof_ ∧ st.ma_.length = st.dof_ ∧
  (st.vel_last_ = [] ∨ st.vel_last_.length = st.dof_) ∧
  (st.vel_before_last_ = [] ∨ st.vel_before_last_.length = st.dof_) ∧
  (st.vel_before_last_ ≠ [] → st.vel_last_ ≠ [])

instance (st : SimpsonIntegrator M) : Decidable (WellFormed st) := by
  unfold WellFormed
  exact inferInstance

/-- States that an object constructed with `dof` joints can be in: the
constructed one, and those obtained by calls of `resetIntegration` and of
`updateIntegration` with input arrays of at least `dof` rows. -/
inductive Reachable (M : MovingAvgBase) (dof : Nat) : SimpsonIntegrator M → Prop
  | construct : Reachable M dof (SimpsonIntegrator.new M dof)
  | reset {st st1 : SimpsonIntegrator M} :
      Reachable M dof st → resetIntegration st = some st1 → Reachable M dof st1
  | update {st : SimpsonIntegrator M} {r : UpdateResult M}
      (q_dot_ik current_q pos vel : List ℚ) (now : ℚ) :
      Reachable M dof st → dof ≤ q_dot_ik.length → dof ≤ current_q.length →
      updateIntegration st q_dot_ik current_q pos vel now = some r →
      Reachable M dof r.state

/-- The one-joint object, with the exponential smoother that is valid from its
first sample, after construction and two calls at clock reading 0 with velocity 1. -/
def warmState : SimpsonIntegrator (MovingAvgExponential 1) where
  ma_vel_ := [ExpSmoother.mk (2 / 10) (9 / 25) 2]
  ma_ := [ExpSmoother.mk (2 / 10) 0 0]
  dof_ := 1
  vel_last_ := [9 / 25]
  vel_before_last_ := [1 / 5]
  last_update_time_ := 0
  last_period_ := 0

/-- The one-joint object, with an exponential smoother that needs two samples,
after construction and two calls at clock reading 0 with velocity 1. -/
def coldState : SimpsonIntegrator (MovingAvgExponential 2) where
  ma_vel_ := [ExpSmoother.mk (2 / 10) (9 / 25) 2]
  ma_ := [ExpSmoother.mk (2 / 10) 0 0]
  dof_ := 1
  vel_last_ := [9 / 25]
  vel_before_last_ := [1]
  last_update_time_ := 0
  last_period_ := 0

/-- The one-joint object, with the exponential smoother that is valid from its
first sample, after construction and two calls at clock reading 0, the first
with velocity 5 and the second with velocity 1: both recorded velocities are 1. -/
def steadyState : SimpsonIntegrator (MovingAvgExponential 1) where
  ma_vel_ := [ExpSmoother.mk (2 / 10) 1 2]
  ma_ := [ExpSmoother.mk (2 / 10) 0 0]
  dof_ := 1
  vel_last_ := [1]
  vel_before_last_ := [1]
  last_update_time_ := 0
  last_period_ := 0

/-- Arguments of one call of `updateIntegration` together with the clock reading
that the call obtains. -/
structure Call where
  q_dot_ik : List ℚ
  current_q : List ℚ
  pos : List ℚ
  vel : List ℚ
  now : ℚ

/-- A run of `updateIntegration` calls on one object, in program order, with no
other call in between; the results are listed in the order of the calls. -/
def runCalls (st : SimpsonIntegrator M) : List Call → Option (List (UpdateResult M))
  | [] => some []
  | c :: cs =>
    (updateIntegration st c.q_dot_ik c.current_q c.pos c.vel c.now).bind fun r =>
      (runCalls r.state cs).map fun rs => r :: rs

/-- Number of history samples an object holds: 0, 1 or 2. -/
def historySamples (st : SimpsonIntegrator M) : Nat :=
  (if st.vel_last_ = [] then 0 else 1) + (if st.vel_before_last_ = [] then 0 else 1)

/-! ## The exponential smoother -/

theorem MovingAvgExponential.create_eq (w : Nat) (factor : ℚ) :
    (MovingAvgExponential w).create factor = ExpSmoother.mk factor 0 0 := rfl

theorem MovingAvgExponential.addElement_eq (w : Nat) (s : ExpSmoother) (x : ℚ) :
    (MovingAvgExponential w).addElement s x =
      ExpSmoother.mk s.factor (s.factor * x + (1 - s.factor) * s.average) (s.count + 1) := rfl

theorem MovingAvgExponential.calcMovingAverage_eq (w : Nat) (s : ExpSmoother) :
    (MovingAvgExponential w).calcMovingAverage s =
      if w ≤ s.count then some s.average else none := rfl

theorem MovingAvgExponential.reset_eq (w : Nat) (s : ExpSmoother) :
    (MovingAvgExponential w).reset s = ExpSmoother.mk s.factor 0 0 := rfl

/-! ## The loops -/

theorem forLoop_succ {σ : Type} (body : Nat → σ → Option σ) (n : Nat) (s : σ) :
    forLoop body (n + 1) s = (forLoop body n s).bind (body n) := rfl

theorem forLoop_pushBody (src : List ℚ) (k : Nat) (hk : k ≤ src.length) :
    forLoop (pushBody src) k [] = some (src.take k) := by
  induction k with
  | zero => simp [forLoop]
  | succ k ih =>
    have hlt : k < src.length := hk
    rw [forLoop_succ, ih (Nat.le_of_lt hlt), List.take_succ, List.getElem?_eq_getElem hlt]
    simp only [Option.some_bind, pushBody, List.getElem?_eq_getElem hlt, Option.map_some',
      Option.toList_some]

theorem forLoop_pushBody_all (src : List ℚ) :
    forLoop (pushBody src) src.length [] = some src := by
  rw [forLoop_pushBody src src.length (Nat.le_refl _), List.take_length]

theorem forLoop_resetBody (l1 l2 : List M.S) (k : Nat) (h1 : k ≤ l1.length)
    (h2 : k ≤ l2.length) :
    ∃ s, forLoop (resetBody M) k (l1, l2) = some s ∧
      s.1.length = l1.length ∧ s.2.length = l2.length ∧
      (∀ j, s.1[j]? = if j < k then (l1[j]?).map M.reset else l1[j]?) ∧
      (∀ j, s.2[j]? = if j < k then (l2[j]?).map M.reset else l2[j]?) := by
  induction k with
  | zero => exact ⟨(l1, l2), rfl, rfl, rfl, by simp, by simp⟩
  | succ k ih =>
    have hk1 : k < l1.length := h1
    have hk2 : k < l2.length := h2
    obtain ⟨s, hs, hl1, hl2, hp1, hp2⟩ := ih (Nat.le_of_lt hk1) (Nat.le_of_lt hk2)
    have e1 : s.1[k]? = some l1[k] := by
      rw [hp1 k, if_neg (Nat.lt_irrefl k), List.getElem?_eq_getElem hk1]
    have e2 : s.2[k]? = some l2[k] := by
      rw [hp2 k, if_neg (Nat.lt_irrefl k), List.getElem?_eq_getElem hk2]
    refine ⟨(s.1.set k (M.reset l1[k]), s.2.set k (M.reset l2[k])), ?_, ?_, ?_, ?_, ?_⟩
    · rw [forLoop_succ, hs]
      simp [resetBody, e1, e2]
    · simp [hl1]
    · simp [hl2]
    · intro j
      rw [List.getElem?_set]
      by_cases hjk : k = j
      · subst hjk
        simp [hl1, hk1, List.getElem?_eq_getElem hk1]
      · rw [if_neg hjk, hp1 j]
        by_cases hlt : j < k
        · simp [hlt, Nat.lt_succ_of_lt hlt]
        · have : ¬ j < k + 1 := by omega
          simp [hlt, this]
    · intro j
      rw [List.getElem?_set]
      by_cases hjk : k = j
      · subst hjk
        simp [hl2, hk2, List.getElem?_eq_getElem hk2]
      · rw [if_neg hjk, hp2 j]
        by_cases hlt : j < k
        · simp [hlt, Nat.lt_succ_of_lt hlt]
        · have : ¬ j < k + 1 := by omega
          simp [hlt, this]

theorem forLoop_resetBody_all (l1 l2 : List M.S) (k : Nat) (h1 : l1.length = k)
    (h2 : l2.length = k) :
    forLoop (resetBody M) k (l1, l2) = some (l1.map M.reset, l2.map M.reset) := by
  obtain ⟨s, hs, hl1, hl2, hp1, hp2⟩ :=
    forLoop_resetBody l1 l2 k (Nat.le_of_eq h1.symm) (Nat.le_of_eq h2.symm)
  rw [hs]
  have a1 : s.1 = l1.map M.reset := by
    apply List.ext_getElem?
    intro j
    rw [hp1 j, List.getElem?_map]
    by_cases hj : j < k
    · simp [hj]
    · have : l1.length ≤ j := by omega
      simp [hj, List.getElem?_eq_none this]
  have a2 : s.2 = l2.map M.reset := by
    apply List.ext_getElem?
    intro j
    rw [hp2 j, List.getElem?_map]
    by_cases hj : j < k
    · simp [hj]
    · have : l2.length ≤ j := by omega
      simp [hj, List.getElem?_eq_none this]
  rw [← a1, ← a2]

theorem take_succ_set {α : Type} (l : List α) (k : Nat) (a : α) (h : k < l.length) :
    (l.set k a).take (k + 1) = l.take k ++ [a] := by
  apply List.ext_getElem?
  intro j
  rw [List.getElem?_take, List.getElem?_set]
  by_cases hj : j < k
  · have h1 : j < k + 1 := by omega
    have h2 : ¬ k = j := by omega
    have h3 : j < (List.take k l).length := by simp; omega
    rw [if_pos h1, if_neg h2, List.getElem?_append_left h3, List.getElem?_take_of_lt hj]
  · by_cases hjk : k = j
    · subst hjk
      have h4 : (List.take k l).length ≤ k := by simp
      rw [List.getElem?_append_right h4]
      simp [h, Nat.min_eq_left (Nat.le_of_lt h)]
    · have h1 : ¬ j < k + 1 := by omega
      have h5 : (List.take k l ++ [a]).length ≤ j := by simp; omega
      rw [if_neg h1, List.getElem?_eq_none h5]

theorem forLoop_smoothBody (q : List ℚ) (ma : List M.S) (avg : List ℚ) (k : Nat)
    (h1 : k ≤ ma.length) (h2 : k ≤ q.length) (h3 : k ≤ avg.length) :
    ∃ s, forLoop (smoothBody M q) k (ma, avg) = some s ∧
      s.1.length = ma.length ∧ s.2.length = avg.length ∧
      (∀ j, s.1[j]? = if j < k then (List.zipWith M.addElement ma q)[j]? else ma[j]?) ∧
      (∀ j, s.2[j]? = if j < k then (List.zipWith (smoothedVel M) ma q)[j]? else avg[j]?) := by
  induction k with
  | zero => exact ⟨(ma, avg), rfl, rfl, rfl, by simp, by simp⟩
  | succ k ih =>
    have hk1 : k < ma.length := h1
    have hk2 : k < q.length := h2
    have hk3 : k < avg.length := h3
    obtain ⟨s, hs, hl1, hl2, hp1, hp2⟩ :=
      ih (Nat.le_of_lt hk1) (Nat.le_of_lt hk2) (Nat.le_of_lt hk3)
    have e1 : s.1[k]? = some ma[k] := by
      rw [hp1 k, if_neg (Nat.lt_irrefl k), List.getElem?_eq_getElem hk1]
    have e2 : q[k]? = some q[k] := List.getElem?_eq_getElem hk2
    have e3 : k < s.2.length := by rw [hl2]; exact hk3
    refine ⟨(s.1.set k (M.addElement ma[k] q[k]), s.2.set k (smoothedVel M ma[k] q[k])),
      ?_, ?_, ?_, ?_, ?_⟩
    · rw [forLoop_succ, hs]
      simp only [Option.some_bind, smoothBody, e1, e2, e3, if_true]
    · simp [hl1]
    · simp [hl2]
    · intro j
      rw [List.getElem?_set]
      by_cases hjk : k = j
      · subst hjk
        simp [hl1, hk1, List.getElem?_zipWith, List.getElem?_eq_getElem hk1, e2]
      · rw [if_neg hjk, hp1 j]
        by_cases hlt : j < k
        · simp [hlt, Nat.lt_succ_of_lt hlt]
        · have : ¬ j < k + 1 := by omega
          simp [hlt, this]
    · intro j
      rw [List.getElem?_set]
      by_cases hjk : k = j
      · subst hjk
        simp [hl2, hk3, List.getElem?_zipWith, List.getElem?_eq_getElem hk1, e2]
      · rw [if_neg hjk, hp2 j]
        by_cases hlt : j < k
        · simp [hlt, Nat.lt_succ_of_lt hlt]
        · have : ¬ j < k + 1 := by omega
          simp [hlt, this]

theorem forLoop_smoothBody_all (q : List ℚ) (ma : List M.S) (k : Nat)
    (h1 : ma.length = k) (h2 : k ≤ q.length) :
    forLoop (smoothBody M q) k (ma, List.replicate k 0) =
      some (List.zipWith M.addElement ma q, List.zipWith (smoothedVel M) ma q) := by
  obtain ⟨s, hs, hl1, hl2, hp1, hp2⟩ :=
    forLoop_smoothBody q ma (List.replicate k 0) k (Nat.le_of_eq h1.symm) h2 (by simp)
  rw [hs]
  have a1 : s.1 = List.zipWith M.addElement ma q := by
    apply List.ext_getElem?
    intro j
    rw [hp1 j]
    by_cases hj : j < k
    · simp [hj]
    · have : ma.length ≤ j := by omega
      simp [hj, List.getElem?_zipWith, List.getElem?_eq_none this]
  have a2 : s.2 = List.zipWith (smoothedVel M) ma q := by
    apply List.ext_getElem?
    intro j
    rw [hp2 j]
    by_cases hj : j < k
    · simp [hj]
    · have : ma.length ≤ j := by omega
      simp [hj, List.getElem?_zipWith, List.getElem?_eq_none this, List.getElem?_replicate]
  rw [← a1, ← a2]

/-- Outputs of the Simpson loop in terms of the position smoothers it leaves behind. -/
theorem forLoop_simpsonBody (T : ℚ) (vbl vl avg cq : List ℚ) (ma : List M.S) (k : Nat)
    (h1 : k ≤ vbl.length) (h2 : k ≤ vl.length) (h3 : k ≤ avg.length) (h4 : k ≤ cq.length)
    (h5 : k ≤ ma.length) :
    ∃ s, forLoop (simpsonBody M T vbl vl avg cq) k (ma, [], []) = some s ∧
      s.1.length = ma.length ∧
      (∀ j, k ≤ j → s.1[j]? = ma[j]?) ∧
      (∀ j, j < k → ∀ v2 v1 v0 c m, vbl[j]? = some v2 → vl[j]? = some v1 →
        avg[j]? = some v0 → cq[j]? = some c → ma[j]? = some m →
        s.1[j]? = some (M.addElement m (integration_value T v2 v1 v0 c))) ∧
      s.2.1 = (s.1.take k).filterMap M.calcMovingAverage ∧
      s.2.2 = ((s.1.take k).zip (avg.take k)).filterMap
        (fun p => (M.calcMovingAverage p.1).map (fun _ => p.2)) ∧
      s.2.1.length = s.2.2.length ∧ s.2.1.length ≤ k := by
  induction k with
  | zero =>
    exact ⟨(ma, [], []), rfl, rfl, fun _ _ => rfl, by intro j hj; omega, by simp, by simp,
      rfl, Nat.le_refl 0⟩
  | succ k ih =>
    have hk1 : k < vbl.length := h1
    have hk2 : k < vl.length := h2
    have hk3 : k < avg.length := h3
    have hk4 : k < cq.length := h4
    have hk5 : k < ma.length := h5
    obtain ⟨s, hs, hl, hge, hlt, hpos, hvel, hsame, hle⟩ := ih (Nat.le_of_lt hk1) (Nat.le_of_lt hk2)
      (Nat.le_of_lt hk3) (Nat.le_of_lt hk4) (Nat.le_of_lt hk5)
    have e1 : vbl[k]? = some vbl[k] := List.getElem?_eq_getElem hk1
    have e2 : vl[k]? = some vl[k] := List.getElem?_eq_getElem hk2
    have e3 : avg[k]? = some avg[k] := List.getElem?_eq_getElem hk3
    have e4 : cq[k]? = some cq[k] := List.getElem?_eq_getElem hk4
    have e5 : s.1[k]? = some ma[k] := by
      rw [hge k (Nat.le_refl k), List.getElem?_eq_getElem hk5]
    have hks : k < s.1.length := by rw [hl]; exact hk5
    -- the smoother of joint `k` after its candidate was added
    obtain ⟨m1, hm1⟩ : ∃ m1, m1 = M.addElement ma[k]
      (integration_value T vbl[k] vl[k] avg[k] cq[k]) := ⟨_, rfl⟩
    have hbody : simpsonBody M T vbl vl avg cq k s =
        some (s.1.set k m1,
          s.2.1 ++ (M.calcMovingAverage m1).toList,
          s.2.2 ++ ((M.calcMovingAverage m1).map (fun _ => avg[k])).toList) := by
      simp only [simpsonBody, e1, e2, e3, e4, e5, ← hm1]
      cases M.calcMovingAverage m1 <;> simp
    refine ⟨_, by rw [forLoop_succ, hs, Option.some_bind, hbody], ?_, ?_, ?_, ?_, ?_, ?_, ?_⟩
    · simp [hl]
    · intro j hj
      have hne : k ≠ j := by omega
      show (s.1.set k m1)[j]? = ma[j]?
      rw [List.getElem?_set_ne hne, hge j (by omega)]
    · intro j hj v2 v1 v0 c m g1 g2 g3 g4 g5
      show (s.1.set k m1)[j]? = _
      by_cases hjk : k = j
      · subst hjk
        rw [e1] at g1; rw [e2] at g2; rw [e3] at g3; rw [e4] at g4
        rw [List.getElem?_eq_getElem hk5] at g5
        cases g1; cases g2; cases g3; cases g4; cases g5
        rw [List.getElem?_set_self hks, hm1]
      · rw [List.getElem?_set_ne hjk]
        exact hlt j (by omega) v2 v1 v0 c m g1 g2 g3 g4 g5
    · show s.2.1 ++ _ = List.filterMap _ (List.take (k + 1) (s.1.set k m1))
      rw [take_succ_set s.1 k m1 hks, List.filterMap_append, ← hpos]
      cases hc : M.calcMovingAverage m1 <;> simp [List.filterMap_cons, hc]
    · show s.2.2 ++ _ = List.filterMap _ ((List.take (k + 1) (s.1.set k m1)).zip _)
      have hlen : (List.take k s.1).length = (List.take k avg).length := by
        simp [Nat.min_eq_left (Nat.le_of_lt hks), Nat.min_eq_left (Nat.le_of_lt hk3)]
      rw [take_succ_set s.1 k m1 hks, List.take_succ, e3, Option.toList_some,
        List.zip_append hlen, List.filterMap_append, ← hvel]
      cases hc : M.calcMovingAverage m1 <;> simp [List.filterMap_cons, hc]
    · show (s.2.1 ++ _).length = (s.2.2 ++ _).length
      cases hc : M.calcMovingAverage m1 <;> simp [hsame]
    · show (s.2.1 ++ _).length ≤ k + 1
      cases hc : M.calcMovingAverage m1 <;> simp <;> omega

/-! ## The two methods on well-formed objects -/

theorem resetIntegration_eq (st : SimpsonIntegrator M) (h1 : st.ma_vel_.length = st.dof_)
    (h2 : st.ma_.length = st.dof_) :
    resetIntegration st = some
      { st with vel_last_ := [], vel_before_last_ := [],
                ma_vel_ := st.ma_vel_.map M.reset, ma_ := st.ma_.map M.reset } := by
  unfold resetIntegration
  rw [forLoop_resetBody_all st.ma_vel_ st.ma_ st.dof_ h1 h2]
  rfl

theorem wellFormed_new (M : MovingAvgBase) (dof : Nat) :
    WellFormed (SimpsonIntegrator.new M dof) := by
  simp [WellFormed, SimpsonIntegrator.new]

theorem wellFormed_reset {st st1 : SimpsonIntegrator M} (h : WellFormed st)
    (hr : resetIntegration st = some st1) : WellFormed st1 := by
  rw [resetIntegration_eq st h.1 h.2.1] at hr
  cases hr
  simp [WellFormed, h.1, h.2.1]

theorem updateCycle_noHistory (st : SimpsonIntegrator M) (q_dot_ik current_q pos vel : List ℚ)
    (now period : ℚ) (h1 : st.ma_vel_.length = st.dof_) (hq : st.dof_ ≤ q_dot_ik.length)
    (hv : st.vel_before_last_ = []) :
    updateCycle st q_dot_ik current_q pos vel now period = some
      { value_valid := false
        pos := pos
        vel := vel
        state :=
          { st with
            ma_vel_ := List.zipWith M.addElement st.ma_vel_ q_dot_ik
            vel_before_last_ := st.vel_last_
            vel_last_ := List.zipWith (smoothedVel M) st.ma_vel_ q_dot_ik
            last_update_time_ := now
            last_period_ := period } } := by
  unfold updateCycle
  rw [forLoop_smoothBody_all q_dot_ik st.ma_vel_ st.dof_ h1 hq]
  simp only [Option.some_bind, hv, ne_eq, not_true_eq_false, if_false, forLoop_pushBody_all,
    Option.map_some']

theorem updateCycle_history (st : SimpsonIntegrator M) (q_dot_ik current_q : List ℚ)
    (now period : ℚ) (h : WellFormed st) (hq : st.dof_ ≤ q_dot_ik.length)
    (hc : st.dof_ ≤ current_q.length) (hv : st.vel_before_last_ ≠ []) :
    ∃ ma1 pos1 vel1,
      forLoop (simpsonBody M period st.vel_before_last_ st.vel_last_
        (List.zipWith (smoothedVel M) st.ma_vel_ q_dot_ik) current_q) st.dof_ (st.ma_, [], [])
        = some (ma1, pos1, vel1) ∧
      updateCycle st q_dot_ik current_q [] [] now period = some
        { value_valid := true
          pos := pos1
          vel := vel1
          state :=
            { st with
              ma_vel_ := List.zipWith M.addElement st.ma_vel_ q_dot_ik
              ma_ := ma1
              vel_before_last_ := st.vel_last_
              vel_last_ := List.zipWith (smoothedVel M) st.ma_vel_ q_dot_ik
              last_update_time_ := now
              last_period_ := period } } := by
  obtain ⟨h1, h2, h3, h4, h5⟩ := h
  have l4 : st.vel_before_last_.length = st.dof_ := h4.resolve_left hv
  have l3 : st.vel_last_.length = st.dof_ := h3.resolve_left (h5 hv)
  have la : (List.zipWith (smoothedVel M) st.ma_vel_ q_dot_ik).length = st.dof_ := by
    rw [List.length_zipWith, h1]; exact Nat.min_eq_left hq
  obtain ⟨s, hs, -⟩ := forLoop_simpsonBody period st.vel_before_last_ st.vel_last_
    (List.zipWith (smoothedVel M) st.ma_vel_ q_dot_ik) current_q st.ma_ st.dof_
    (Nat.le_of_eq l4.symm) (Nat.le_of_eq l3.symm) (Nat.le_of_eq la.symm) hc
    (Nat.le_of_eq h2.symm)
  refine ⟨s.1, s.2.1, s.2.2, hs, ?_⟩
  unfold updateCycle
  rw [forLoop_smoothBody_all q_dot_ik st.ma_vel_ st.dof_ h1 hq]
  simp only [Option.some_bind, hv, ne_eq, not_false_eq_true, if_true, hs, forLoop_pushBody_all,
    Option.map_some']

theorem updateIntegration_stale (st : SimpsonIntegrator M) (q_dot_ik current_q pos vel : List ℚ)
    (now : ℚ) (hp : now - st.last_update_time_ > 1 / 2) :
    updateIntegration st q_dot_ik current_q pos vel now =
      (resetIntegration st).bind fun st1 =>
        updateCycle st1 q_dot_ik current_q [] [] now (now - st.last_update_time_) := by
  simp only [updateIntegration, hp, if_true, clear]

theorem updateIntegration_fresh (st : SimpsonIntegrator M) (q_dot_ik current_q pos vel : List ℚ)
    (now : ℚ) (hp : ¬ now - st.last_update_time_ > 1 / 2) :
    updateIntegration st q_dot_ik current_q pos vel now =
      updateCycle st q_dot_ik current_q [] [] now (now - st.last_update_time_) := by
  simp only [updateIntegration, hp, if_false, clear, Option.some_bind]

/-! ## One call of `updateIntegration` -/

/-- A call whose period exceeds the threshold. -/
theorem updateIntegration_of_stale (st : SimpsonIntegrator M)
    (q_dot_ik current_q pos vel : List ℚ) (now : ℚ) (h : WellFormed st)
    (hq : st.dof_ ≤ q_dot_ik.length) (hp : now - st.last_update_time_ > 1 / 2) :
    updateIntegration st q_dot_ik current_q pos vel now = some
      { value_valid := false
        pos := []
        vel := []
        state :=
          { st with
            ma_vel_ := List.zipWith M.addElement (st.ma_vel_.map M.reset) q_dot_ik
            ma_ := st.ma_.map M.reset
            vel_before_last_ := []
            vel_last_ := List.zipWith (smoothedVel M) (st.ma_vel_.map M.reset) q_dot_ik
            last_update_time_ := now
            last_period_ := now - st.last_update_time_ } } := by
  rw [updateIntegration_stale st q_dot_ik current_q pos vel now hp,
    resetIntegration_eq st h.1 h.2.1, Option.some_bind]
  exact updateCycle_noHistory _ q_dot_ik current_q [] [] now _
    (by simp only [List.length_map]; exact h.1) hq rfl

/-- A call within the threshold on an object without two history samples. -/
theorem updateIntegration_of_noHistory (st : SimpsonIntegrator M)
    (q_dot_ik current_q pos vel : List ℚ) (now : ℚ) (h : WellFormed st)
    (hq : st.dof_ ≤ q_dot_ik.length) (hp : ¬ now - st.last_update_time_ > 1 / 2)
    (hv : st.vel_before_last_ = []) :
    updateIntegration st q_dot_ik current_q pos vel now = some
      { value_valid := false
        pos := []
        vel := []
        state :=
          { st with
            ma_vel_ := List.zipWith M.addElement st.ma_vel_ q_dot_ik
            vel_before_last_ := st.vel_last_
            vel_last_ := List.zipWith (smoothedVel M) st.ma_vel_ q_dot_ik
            last_update_time_ := now
            last_period_ := now - st.last_update_time_ } } := by
  rw [updateIntegration_fresh st q_dot_ik current_q pos vel now hp,
    updateCycle_noHistory st q_dot_ik current_q [] [] now _ h.1 hq hv]

/-- A call within the threshold on an object with two history samples. -/
theorem updateIntegration_of_history (st : SimpsonIntegrator M)
    (q_dot_ik current_q pos vel : List ℚ) (now : ℚ) (h : WellFormed st)
    (hq : st.dof_ ≤ q_dot_ik.length) (hc : st.dof_ ≤ current_q.length)
    (hp : ¬ now - st.last_update_time_ > 1 / 2) (hv : st.vel_before_last_ ≠ []) :
    ∃ ma1 pos1 vel1,
      forLoop (simpsonBody M (now - st.last_update_time_) st.vel_before_last_ st.vel_last_
        (List.zipWith (smoothedVel M) st.ma_vel_ q_dot_ik) current_q) st.dof_ (st.ma_, [], [])
        = some (ma1, pos1, vel1) ∧
      updateIntegration st q_dot_ik current_q pos vel now = some
        { value_valid := true
          pos := pos1
          vel := vel1
          state :=
            { st with
              ma_vel_ := List.zipWith M.addElement st.ma_vel_ q_dot_ik
              ma_ := ma1
              vel_before_last_ := st.vel_last_
              vel_last_ := List.zipWith (smoothedVel M) st.ma_vel_ q_dot_ik
              last_update_time_ := now
              last_period_ := now - st.last_update_time_ } } := by
  rw [updateIntegration_fresh st q_dot_ik current_q pos vel now hp]
  exact updateCycle_history st q_dot_ik current_q now _ h hq hc hv

theorem length_zipWith_of_le {α β : Type} (f : α → ℚ → β) (l : List α) (q : List ℚ) (n : Nat)
    (hl : l.length = n) (hq : n ≤ q.length) : (List.zipWith f l q).length = n := by
  rw [List.length_zipWith, hl]
  exact Nat.min_eq_left hq

/-- A call that succeeds on a well-formed object leaves a well-formed object with
the same number of joints. -/
theorem wellFormed_update {st : SimpsonIntegrator M} {r : UpdateResult M}
    (q_dot_ik current_q pos vel : List ℚ) (now : ℚ) (h : WellFormed st)
    (hq : st.dof_ ≤ q_dot_ik.length) (hc : st.dof_ ≤ current_q.length)
    (hr : updateIntegration st q_dot_ik current_q pos vel now = some r) :
    WellFormed r.state ∧ r.state.dof_ = st.dof_ := by
  by_cases hp : now - st.last_update_time_ > 1 / 2
  · rw [updateIntegration_of_stale st q_dot_ik current_q pos vel now h hq hp] at hr
    cases hr
    refine ⟨⟨?_, ?_, ?_, ?_, ?_⟩, rfl⟩
    · exact length_zipWith_of_le _ _ _ _ (by simp [h.1]) hq
    · simp [h.2.1]
    · exact Or.inr (length_zipWith_of_le _ _ _ _ (by simp [h.1]) hq)
    · exact Or.inl rfl
    · intro hne; exact absurd rfl hne
  · by_cases hv : st.vel_before_last_ = []
    · rw [updateIntegration_of_noHistory st q_dot_ik current_q pos vel now h hq hp hv] at hr
      cases hr
      refine ⟨⟨?_, h.2.1, ?_, h.2.2.1, ?_⟩, rfl⟩
      · exact length_zipWith_of_le _ _ _ _ h.1 hq
      · exact Or.inr (length_zipWith_of_le _ _ _ _ h.1 hq)
      · intro hne hz
        have hlen := length_zipWith_of_le (smoothedVel M) _ _ _ h.1 hq
        have h0 : st.vel_last_.length = st.dof_ := h.2.2.1.resolve_left hne
        show False
        simp only at hz hne
        rw [hz] at hlen
        apply hne
        apply List.eq_nil_of_length_eq_zero
        rw [h0]; exact hlen.symm
    · obtain ⟨ma1, pos1, vel1, hloop, hu⟩ :=
        updateIntegration_of_history st q_dot_ik current_q pos vel now h hq hc hp hv
      rw [hu] at hr
      cases hr
      have l4 : st.vel_before_last_.length = st.dof_ := h.2.2.2.1.resolve_left hv
      have l3 : st.vel_last_.length = st.dof_ := h.2.2.1.resolve_left (h.2.2.2.2 hv)
      have la := length_zipWith_of_le (smoothedVel M) _ _ _ h.1 hq
      obtain ⟨s, hs, hl, -⟩ := forLoop_simpsonBody (now - st.last_update_time_)
        st.vel_before_last_ st.vel_last_
        (List.zipWith (smoothedVel M) st.ma_vel_ q_dot_ik) current_q st.ma_ st.dof_
        (Nat.le_of_eq l4.symm) (Nat.le_of_eq l3.symm) (Nat.le_of_eq la.symm) hc
        (Nat.le_of_eq h.2.1.symm)
      rw [hs] at hloop
      cases hloop
      refine ⟨⟨?_, ?_, ?_, Or.inr l3, ?_⟩, rfl⟩
      · exact length_zipWith_of_le _ _ _ _ h.1 hq
      · exact hl.trans h.2.1
      · exact Or.inr la
      · intro hne hz
        simp only at hz hne
        rw [hz] at la
        apply hne
        apply List.eq_nil_of_length_eq_zero
        rw [l3]; exact la.symm

/-- On a well-formed object a call with enough input rows does not run out of bounds. -/
theorem updateIntegration_total (st : SimpsonIntegrator M)
    (q_dot_ik current_q pos vel : List ℚ) (now : ℚ) (h : WellFormed st)
    (hq : st.dof_ ≤ q_dot_ik.length) (hc : st.dof_ ≤ current_q.length) :
    ∃ r, updateIntegration st q_dot_ik current_q pos vel now = some r := by
  by_cases hp : now - st.last_update_time_ > 1 / 2
  · exact ⟨_, updateIntegration_of_stale st q_dot_ik current_q pos vel now h hq hp⟩
  · by_cases hv : st.vel_before_last_ = []
    · exact ⟨_, updateIntegration_of_noHistory st q_dot_ik current_q pos vel now h hq hp hv⟩
    · obtain ⟨ma1, pos1, vel1, -, hu⟩ :=
        updateIntegration_of_history st q_dot_ik current_q pos vel now h hq hc hp hv
      exact ⟨_, hu⟩

/-- A call on an object whose `vel_before_last_` is empty: no output, and the object
stays well-formed; `vel_before_last_` stays empty if `vel_last_` was empty too. -/
theorem updateIntegration_warmup (st : SimpsonIntegrator M)
    (q_dot_ik current_q pos vel : List ℚ) (now : ℚ) (h : WellFormed st)
    (hq : st.dof_ ≤ q_dot_ik.length) (hv : st.vel_before_last_ = []) :
    ∃ r, updateIntegration st q_dot_ik current_q pos vel now = some r ∧
      r.value_valid = false ∧ r.pos = [] ∧ r.vel = [] ∧
      WellFormed r.state ∧ r.state.dof_ = st.dof_ ∧
      (st.vel_last_ = [] → r.state.vel_before_last_ = []) := by
  by_cases hp : now - st.last_update_time_ > 1 / 2
  · refine ⟨_, updateIntegration_of_stale st q_dot_ik current_q pos vel now h hq hp,
      rfl, rfl, rfl, ⟨?_, ?_, ?_, Or.inl rfl, ?_⟩, rfl, fun _ => rfl⟩
    · exact length_zipWith_of_le _ _ _ _ (by simp [h.1]) hq
    · simp [h.2.1]
    · exact Or.inr (length_zipWith_of_le _ _ _ _ (by simp [h.1]) hq)
    · intro hne; exact absurd rfl hne
  · refine ⟨_, updateIntegration_of_noHistory st q_dot_ik current_q pos vel now h hq hp hv,
      rfl, rfl, rfl, ⟨?_, h.2.1, ?_, h.2.2.1, ?_⟩, rfl, fun hl => hl⟩
    · exact length_zipWith_of_le _ _ _ _ h.1 hq
    · exact Or.inr (length_zipWith_of_le _ _ _ _ h.1 hq)
    · intro hne hz
      have hlen := length_zipWith_of_le (smoothedVel M) _ _ _ h.1 hq
      have h0 : st.vel_last_.length = st.dof_ := h.2.2.1.resolve_left hne
      simp only at hz hne
      rw [hz] at hlen
      apply hne
      apply List.eq_nil_of_length_eq_zero
      rw [h0]; exact hlen.symm

/-! ## Warm-up after a reset -/

/-- A call whose period exceeds the threshold: no output, the object stays
well-formed and `vel_before_last_` is empty afterwards. -/
theorem updateIntegration_stale_post (st : SimpsonIntegrator M)
    (q_dot_ik current_q pos vel : List ℚ) (now : ℚ) (h : WellFormed st)
    (hq : st.dof_ ≤ q_dot_ik.length) (hp : now - st.last_update_time_ > 1 / 2) :
    ∃ r, updateIntegration st q_dot_ik current_q pos vel now = some r ∧
      r.value_valid = false ∧ r.pos = [] ∧ r.vel = [] ∧
      WellFormed r.state ∧ r.state.dof_ = st.dof_ ∧ r.state.vel_before_last_ = [] := by
  refine ⟨_, updateIntegration_of_stale st q_dot_ik current_q pos vel now h hq hp,
    rfl, rfl, rfl, ⟨?_, ?_, ?_, Or.inl rfl, ?_⟩, rfl, rfl⟩
  · exact length_zipWith_of_le _ _ _ _ (by simp [h.1]) hq
  · simp [h.2.1]
  · exact Or.inr (length_zipWith_of_le _ _ _ _ (by simp [h.1]) hq)
  · intro hne; exact absurd rfl hne

/-- What every call on a well-formed object with enough input rows does to the
bookkeeping members, and when it reports a valid output. -/
theorem updateIntegration_post (st : SimpsonIntegrator M)
    (q_dot_ik current_q pos vel : List ℚ) (now : ℚ) (h : WellFormed st)
    (hq : st.dof_ ≤ q_dot_ik.length) (hc : st.dof_ ≤ current_q.length) :
    ∃ r, updateIntegration st q_dot_ik current_q pos vel now = some r ∧
      WellFormed r.state ∧ r.state.dof_ = st.dof_ ∧
      r.state.vel_last_.length = st.dof_ ∧
      r.state.last_update_time_ = now ∧
      r.state.last_period_ = now - st.last_update_time_ ∧
      (r.value_valid = true ↔
        (¬ now - st.last_update_time_ > 1 / 2 ∧ st.vel_before_last_ ≠ [])) ∧
      (¬ now - st.last_update_time_ > 1 / 2 → r.state.vel_before_last_ = st.vel_last_) ∧
      (now - st.last_update_time_ > 1 / 2 → r.state.vel_before_last_ = []) ∧
      r.pos.length = r.vel.length ∧ r.pos.length ≤ st.dof_ := by
  obtain ⟨r, hr⟩ := updateIntegration_total st q_dot_ik current_q pos vel now h hq hc
  obtain ⟨hw, hd⟩ := wellFormed_update q_dot_ik current_q pos vel now h hq hc hr
  refine ⟨r, hr, hw, hd, ?_⟩
  by_cases hp : now - st.last_update_time_ > 1 / 2
  · rw [updateIntegration_of_stale st q_dot_ik current_q pos vel now h hq hp] at hr
    cases hr
    refine ⟨length_zipWith_of_le _ _ _ _ (by simp [h.1]) hq, rfl, rfl, ?_, ?_, fun _ => rfl,
      rfl, Nat.zero_le _⟩
    · exact ⟨fun hf => Bool.noConfusion hf, fun hh => absurd hp hh.1⟩
    · intro hn; exact absurd hp hn
  · by_cases hv : st.vel_before_last_ = []
    · rw [updateIntegration_of_noHistory st q_dot_ik current_q pos vel now h hq hp hv] at hr
      cases hr
      refine ⟨length_zipWith_of_le _ _ _ _ h.1 hq, rfl, rfl, ?_, fun _ => rfl, ?_,
        rfl, Nat.zero_le _⟩
      · exact ⟨fun hf => Bool.noConfusion hf, fun hh => absurd hv hh.2⟩
      · intro hn; exact absurd hn hp
    · obtain ⟨ma1, pos1, vel1, hloop, hu⟩ :=
        updateIntegration_of_history st q_dot_ik current_q pos vel now h hq hc hp hv
      rw [hu] at hr
      cases hr
      have l4 : st.vel_before_last_.length = st.dof_ := h.2.2.2.1.resolve_left hv
      have l3 : st.vel_last_.length = st.dof_ := h.2.2.1.resolve_left (h.2.2.2.2 hv)
      have la := length_zipWith_of_le (smoothedVel M) _ _ _ h.1 hq
      obtain ⟨s, hs, -, -, -, -, -, hsame, hle⟩ := forLoop_simpsonBody
        (now - st.last_update_time_) st.vel_before_last_ st.vel_last_
        (List.zipWith (smoothedVel M) st.ma_vel_ q_dot_ik) current_q st.ma_ st.dof_
        (Nat.le_of_eq l4.symm) (Nat.le_of_eq l3.symm) (Nat.le_of_eq la.symm) hc
        (Nat.le_of_eq h.2.1.symm)
      rw [hs] at hloop
      cases hloop
      refine ⟨la, rfl, rfl, ?_, fun _ => rfl, ?_, hsame, hle⟩
      · exact ⟨fun _ => ⟨hp, hv⟩, fun _ => rfl⟩
      · intro hn; exact absurd hn hp

/-- C1: after `resetIntegration()`, called explicitly (first part) or triggered
inside `updateIntegration` by a period above 0.5 (second part), the first and the
second `updateIntegration` call both return `false` and leave `pos` and `vel`
empty, for all inputs, all clock readings and all previous contents of `pos` and
`vel`. -/
theorem no_output_during_warmup (st : SimpsonIntegrator M)
    (q1 c1 pos1 vel1 q2 c2 pos2 vel2 : List ℚ) (now1 now2 : ℚ) (h : WellFormed st)
    (hq1 : st.dof_ ≤ q1.length) (hq2 : st.dof_ ≤ q2.length) :
    (∃ s0 r1 r2, resetIntegration st = some s0 ∧
      updateIntegration s0 q1 c1 pos1 vel1 now1 = some r1 ∧
      r1.value_valid = false ∧ r1.pos = [] ∧ r1.vel = [] ∧
      updateIntegration r1.state q2 c2 pos2 vel2 now2 = some r2 ∧
      r2.value_valid = false ∧ r2.pos = [] ∧ r2.vel = []) ∧
    (now1 - st.last_update_time_ > 1 / 2 →
      ∃ r1 r2, updateIntegration st q1 c1 pos1 vel1 now1 = some r1 ∧
        r1.value_valid = false ∧ r1.pos = [] ∧ r1.vel = [] ∧
        updateIntegration r1.state q2 c2 pos2 vel2 now2 = some r2 ∧
        r2.value_valid = false ∧ r2.pos = [] ∧ r2.vel = []) := by
  constructor
  · have hr := resetIntegration_eq st h.1 h.2.1
    have hw := wellFormed_reset h hr
    obtain ⟨r1, e1, v1, p1, w1, hw1, d1, b1⟩ :=
      updateIntegration_warmup _ q1 c1 pos1 vel1 now1 hw hq1 rfl
    obtain ⟨r2, e2, v2, p2, w2, -⟩ :=
      updateIntegration_warmup r1.state q2 c2 pos2 vel2 now2 hw1 (by rw [d1]; exact hq2)
        (b1 rfl)
    exact ⟨_, r1, r2, hr, e1, v1, p1, w1, e2, v2, p2, w2⟩
  · intro hp
    obtain ⟨r1, e1, v1, p1, w1, hw1, d1, b1⟩ :=
      updateIntegration_stale_post st q1 c1 pos1 vel1 now1 h hq1 hp
    obtain ⟨r2, e2, v2, p2, w2, -⟩ :=
      updateIntegration_warmup r1.state q2 c2 pos2 vel2 now2 hw1 (by rw [d1]; exact hq2) b1
    exact ⟨r1, r2, e1, v1, p1, w1, e2, v2, p2, w2⟩


/-- C1 at a two-joint object whose first call comes 1 s after construction. -/
theorem no_output_during_warmup_witness :
    WellFormed (SimpsonIntegrator.new (MovingAvgExponential 1) 2) ∧
    (SimpsonIntegrator.new (MovingAvgExponential 1) 2).dof_ ≤ [(1 : ℚ), 2].length ∧
    (SimpsonIntegrator.new (MovingAvgExponential 1) 2).dof_ ≤ [(3 : ℚ), 4].length ∧
    ∃ r1 r2,
      updateIntegration (SimpsonIntegrator.new (MovingAvgExponential 1) 2)
        [1, 2] [0, 0] [7] [8] 1 = some r1 ∧
      r1.value_valid = false ∧ r1.pos = [] ∧ r1.vel = [] ∧
      updateIntegration r1.state [3, 4] [0, 0] [5] [6] 1 = some r2 ∧
      r2.value_valid = false ∧ r2.pos = [] ∧ r2.vel = [] :=
  ⟨by decide, by decide, by decide,
    (no_output_during_warmup (SimpsonIntegrator.new (MovingAvgExponential 1) 2)
      [1, 2] [0, 0] [7] [8] [3, 4] [0, 0] [5] [6] 1 1 (by decide) (by decide) (by decide)).2
      (by norm_num [SimpsonIntegrator.new])⟩

/-- C2, as stated, fails: on a freshly reset one-joint object fed the constant
velocity 1 twice with period 0, the second call returns `false` as well. -/
theorem second_call_not_valid :
    ∃ s0 r1 r2,
      resetIntegration (SimpsonIntegrator.new (MovingAvgExponential 1) 1) = some s0 ∧
      updateIntegration s0 [1] [0] [] [] 0 = some r1 ∧
      updateIntegration r1.state [1] [0] [] [] 0 = some r2 ∧
      r1.value_valid = false ∧ ¬ r2.value_valid = true := by
  have h := wellFormed_new (MovingAvgExponential 1) 1
  have hr := resetIntegration_eq _ h.1 h.2.1
  have hw := wellFormed_reset h hr
  obtain ⟨r1, e1, v1, -, -, hw1, d1, b1⟩ :=
    updateIntegration_warmup _ [1] [0] [] [] 0 hw (by decide) rfl
  obtain ⟨r2, e2, v2, -⟩ :=
    updateIntegration_warmup r1.state [1] [0] [] [] 0 hw1 (by rw [d1]; decide) (b1 rfl)
  exact ⟨_, r1, r2, hr, e1, e2, v1, by simp [v2]⟩

/-- C2, amended: after `resetIntegration()` the first and the second call return
`false`, and with at least one joint the third call returns `true`, the second
and the third call coming within 0.5 s of their predecessors (in particular in
immediate succession). -/
theorem third_call_valid (st : SimpsonIntegrator M) (q c pos vel : List ℚ)
    (now1 now2 now3 : ℚ) (h : WellFormed st) (hdof : 1 ≤ st.dof_)
    (hq : st.dof_ ≤ q.length) (hc : st.dof_ ≤ c.length)
    (h2 : now2 - now1 ≤ 1 / 2) (h3 : now3 - now2 ≤ 1 / 2) :
    ∃ s0 r1 r2 r3, resetIntegration st = some s0 ∧
      updateIntegration s0 q c pos vel now1 = some r1 ∧ r1.value_valid = false ∧
      updateIntegration r1.state q c r1.pos r1.vel now2 = some r2 ∧ r2.value_valid = false ∧
      updateIntegration r2.state q c r2.pos r2.vel now3 = some r3 ∧ r3.value_valid = true := by
  have hr := resetIntegration_eq st h.1 h.2.1
  have hw := wellFormed_reset h hr
  obtain ⟨r1, e1, hw1, d1, l1, t1, -, v1, f1, s1, -⟩ :=
    updateIntegration_post _ q c pos vel now1 hw hq hc
  have hq1 : r1.state.dof_ ≤ q.length := by rw [d1]; exact hq
  have hc1 : r1.state.dof_ ≤ c.length := by rw [d1]; exact hc
  have b1 : r1.state.vel_before_last_ = [] := by
    by_cases hp : now1 - st.last_update_time_ > 1 / 2
    · exact s1 hp
    · exact f1 hp
  have n1 : r1.value_valid = false := by
    cases hv : r1.value_valid
    · rfl
    · exact absurd rfl (v1.mp hv).2
  obtain ⟨r2, e2, hw2, d2, l2, t2, -, v2, f2, -⟩ :=
    updateIntegration_post r1.state q c r1.pos r1.vel now2 hw1 hq1 hc1
  have p2 : ¬ now2 - r1.state.last_update_time_ > 1 / 2 := by rw [t1]; exact not_lt.mpr h2
  have n2 : r2.value_valid = false := by
    cases hv : r2.value_valid
    · rfl
    · exact absurd b1 (v2.mp hv).2
  have b2 : r2.state.vel_before_last_ ≠ [] := by
    rw [f2 p2]
    intro hnil
    rw [hnil] at l1
    have hd : st.dof_ = 0 := l1.symm
    omega
  obtain ⟨r3, e3, -, -, -, -, -, v3, -⟩ :=
    updateIntegration_post r2.state q c r2.pos r2.vel now3 hw2 (by rw [d2]; exact hq1)
      (by rw [d2]; exact hc1)
  have p3 : ¬ now3 - r2.state.last_update_time_ > 1 / 2 := by rw [t2]; exact not_lt.mpr h3
  exact ⟨_, r1, r2, r3, hr, e1, n1, e2, n2, e3, v3.mpr ⟨p3, b2⟩⟩

/-- C2 amended, at a one-joint object fed the constant velocity 1 three times at
the same clock reading. -/
theorem third_call_valid_witness :
    WellFormed (SimpsonIntegrator.new (MovingAvgExponential 1) 1) ∧
    ∃ s0 r1 r2 r3,
      resetIntegration (SimpsonIntegrator.new (MovingAvgExponential 1) 1) = some s0 ∧
      updateIntegration s0 [1] [0] [] [] 0 = some r1 ∧ r1.value_valid = false ∧
      updateIntegration r1.state [1] [0] r1.pos r1.vel 0 = some r2 ∧ r2.value_valid = false ∧
      updateIntegration r2.state [1] [0] r2.pos r2.vel 0 = some r3 ∧ r3.value_valid = true :=
  ⟨by decide,
    third_call_valid (SimpsonIntegrator.new (MovingAvgExponential 1) 1) [1] [0] [] [] 0 0 0
      (by decide) (by decide) (by decide) (by decide) (by norm_num) (by norm_num)⟩

/-! ## The Simpson step -/

/-- The position smoothers after a cycle with history: each joint's smoother
received the value of `integration_value` formed from the history on entry, the
velocity of this cycle and the measured position. -/
theorem updateIntegration_candidates (st : SimpsonIntegrator M)
    (q_dot_ik current_q pos vel : List ℚ) (now : ℚ) (h : WellFormed st)
    (hq : st.dof_ ≤ q_dot_ik.length) (hc : st.dof_ ≤ current_q.length)
    (hp : ¬ now - st.last_update_time_ > 1 / 2) (hv : st.vel_before_last_ ≠ []) :
    ∃ r, updateIntegration st q_dot_ik current_q pos vel now = some r ∧
      r.value_valid = true ∧
      r.state.ma_.length = st.dof_ ∧
      r.state.vel_last_ = List.zipWith (smoothedVel M) st.ma_vel_ q_dot_ik ∧
      r.pos = r.state.ma_.filterMap M.calcMovingAverage ∧
      r.vel = (r.state.ma_.zip r.state.vel_last_).filterMap
        (fun p => (M.calcMovingAverage p.1).map (fun _ => p.2)) ∧
      ∀ i, i < st.dof_ → ∃ v2 v1 mv x cq m,
        st.vel_before_last_[i]? = some v2 ∧ st.vel_last_[i]? = some v1 ∧
        st.ma_vel_[i]? = some mv ∧ q_dot_ik[i]? = some x ∧ current_q[i]? = some cq ∧
        st.ma_[i]? = some m ∧
        r.state.ma_[i]? = some (M.addElement m
          (integration_value (now - st.last_update_time_) v2 v1 (smoothedVel M mv x) cq)) := by
  obtain ⟨ma1, pos1, vel1, hloop, hu⟩ :=
    updateIntegration_of_history st q_dot_ik current_q pos vel now h hq hc hp hv
  have l4 : st.vel_before_last_.length = st.dof_ := h.2.2.2.1.resolve_left hv
  have l3 : st.vel_last_.length = st.dof_ := h.2.2.1.resolve_left (h.2.2.2.2 hv)
  have la := length_zipWith_of_le (smoothedVel M) _ _ _ h.1 hq
  obtain ⟨s, hs, hl, -, hlt, hpos, hvel, -, -⟩ := forLoop_simpsonBody
    (now - st.last_update_time_) st.vel_before_last_ st.vel_last_
    (List.zipWith (smoothedVel M) st.ma_vel_ q_dot_ik) current_q st.ma_ st.dof_
    (Nat.le_of_eq l4.symm) (Nat.le_of_eq l3.symm) (Nat.le_of_eq la.symm) hc
    (Nat.le_of_eq h.2.1.symm)
  rw [hs] at hloop
  cases hloop
  have hlen : ma1.length = st.dof_ := hl.trans h.2.1
  have m1 : st.ma_vel_.length = st.dof_ := h.1
  have m2 : st.ma_.length = st.dof_ := h.2.1
  refine ⟨_, hu, rfl, hlen, rfl, ?_, ?_, ?_⟩
  · have e := hpos
    rw [List.take_of_length_le (Nat.le_of_eq hlen)] at e
    exact e
  · have e := hvel
    rw [List.take_of_length_le (Nat.le_of_eq hlen),
      List.take_of_length_le (Nat.le_of_eq la)] at e
    exact e
  · intro i hi
    have b4 : i < q_dot_ik.length := Nat.lt_of_lt_of_le hi hq
    have b5 : i < current_q.length := Nat.lt_of_lt_of_le hi hc
    have g1 : st.vel_before_last_[i]? = some st.vel_before_last_[i] :=
      List.getElem?_eq_getElem (by rw [l4]; exact hi)
    have g2 : st.vel_last_[i]? = some st.vel_last_[i] :=
      List.getElem?_eq_getElem (by rw [l3]; exact hi)
    have g3 : st.ma_vel_[i]? = some st.ma_vel_[i] :=
      List.getElem?_eq_getElem (by rw [h.1]; exact hi)
    have g4 : q_dot_ik[i]? = some q_dot_ik[i] :=
      List.getElem?_eq_getElem (Nat.lt_of_lt_of_le hi hq)
    have g5 : current_q[i]? = some current_q[i] :=
      List.getElem?_eq_getElem (Nat.lt_of_lt_of_le hi hc)
    have g6 : st.ma_[i]? = some st.ma_[i] :=
      List.getElem?_eq_getElem (by rw [h.2.1]; exact hi)
    have g7 : (List.zipWith (smoothedVel M) st.ma_vel_ q_dot_ik)[i]? =
        some (smoothedVel M st.ma_vel_[i] q_dot_ik[i]) := by
      rw [List.getElem?_zipWith, g3, g4]
    exact ⟨_, _, _, _, _, _, g1, g2, g3, g4, g5, g6, hlt i hi _ _ _ _ _ g1 g2 g7 g5 g6⟩

/-- C3: in a cycle with two historical samples, the candidate position added to
the position smoother of every joint `i < dof` is
`q + T/6 * (v2 + 4*(v2 + v1) + v2 + v1 + v0)` with `q = current_q(i)`, `T` the
elapsed period, `v2`, `v1` the entries of `vel_before_last_`, `vel_last_` on
entry and `v0` this cycle's smoothed velocity, over exact rational arithmetic. -/
theorem simpson_candidate_formula (st : SimpsonIntegrator M)
    (q_dot_ik current_q pos vel : List ℚ) (now : ℚ) (h : WellFormed st)
    (hq : st.dof_ ≤ q_dot_ik.length) (hc : st.dof_ ≤ current_q.length)
    (hp : ¬ now - st.last_update_time_ > 1 / 2) (hv : st.vel_before_last_ ≠ []) :
    ∃ r, updateIntegration st q_dot_ik current_q pos vel now = some r ∧
      ∀ i, i < st.dof_ → ∃ v2 v1 v0 q m,
        st.vel_before_last_[i]? = some v2 ∧ st.vel_last_[i]? = some v1 ∧
        r.state.vel_last_[i]? = some v0 ∧ current_q[i]? = some q ∧ st.ma_[i]? = some m ∧
        r.state.ma_[i]? = some (M.addElement m
          (q + (now - st.last_update_time_) / 6 * (v2 + 4 * (v2 + v1) + v2 + v1 + v0))) := by
  obtain ⟨r, hr, -, -, hvl, -, -, hcand⟩ :=
    updateIntegration_candidates st q_dot_ik current_q pos vel now h hq hc hp hv
  refine ⟨r, hr, fun i hi => ?_⟩
  obtain ⟨v2, v1, mv, x, cq, m, g1, g2, g3, g4, g5, g6, g7⟩ := hcand i hi
  refine ⟨v2, v1, smoothedVel M mv x, cq, m, g1, g2, ?_, g5, g6, ?_⟩
  · rw [hvl, List.getElem?_zipWith, g3, g4]
  · rw [g7, integration_value, add_comm]

/-- C3 at `warmState`, fed velocity 1 and measured position 0 at clock reading 0. -/
theorem simpson_candidate_formula_witness :
    WellFormed warmState ∧ warmState.dof_ ≤ [(1 : ℚ)].length ∧
    warmState.dof_ ≤ [(0 : ℚ)].length ∧ ¬ 0 - warmState.last_update_time_ > 1 / 2 ∧
    warmState.vel_before_last_ ≠ [] ∧
    ∃ r, updateIntegration warmState [1] [0] [] [] 0 = some r ∧
      ∀ i, i < warmState.dof_ → ∃ v2 v1 v0 q m,
        warmState.vel_before_last_[i]? = some v2 ∧ warmState.vel_last_[i]? = some v1 ∧
        r.state.vel_last_[i]? = some v0 ∧ [(0 : ℚ)][i]? = some q ∧
        warmState.ma_[i]? = some m ∧
        r.state.ma_[i]? = some ((MovingAvgExponential 1).addElement m
          (q + (0 - warmState.last_update_time_) / 6 * (v2 + 4 * (v2 + v1) + v2 + v1 + v0))) :=
  ⟨by decide, by decide, by decide, by norm_num [warmState], by decide,
    simpson_candidate_formula warmState [1] [0] [] [] 0 (by decide) (by decide) (by decide)
      (by norm_num [warmState]) (by decide)⟩

/-! ## Resets -/

theorem map_reset_idem (hidem : ∀ s, M.reset (M.reset s) = M.reset s) (l : List M.S) :
    (l.map M.reset).map M.reset = l.map M.reset := by
  rw [List.map_map]
  apply List.map_congr_left
  intro a _
  exact hidem a

/-- C4: with a smoother whose `reset` is idempotent, a call whose period exceeds
0.5 s yields the same return value, outputs and post-state as
`resetIntegration()` followed by `updateIntegration` with the same inputs at the
same clock reading; it returns `false` without output, and so does the call
that follows it, whatever its inputs and clock reading. -/
theorem stale_call_is_reset_then_call (hidem : ∀ s, M.reset (M.reset s) = M.reset s)
    (st : SimpsonIntegrator M) (q_dot_ik current_q pos vel : List ℚ) (now : ℚ)
    (h : WellFormed st) (hq : st.dof_ ≤ q_dot_ik.length)
    (hp : now - st.last_update_time_ > 1 / 2) :
    updateIntegration st q_dot_ik current_q pos vel now =
      (resetIntegration st).bind
        (fun s0 => updateIntegration s0 q_dot_ik current_q pos vel now) ∧
    ∃ r, updateIntegration st q_dot_ik current_q pos vel now = some r ∧
      r.value_valid = false ∧ r.pos = [] ∧ r.vel = [] ∧
      ∀ (q2 c2 pos2 vel2 : List ℚ) (now2 : ℚ), st.dof_ ≤ q2.length →
        ∃ r2, updateIntegration r.state q2 c2 pos2 vel2 now2 = some r2 ∧
          r2.value_valid = false ∧ r2.pos = [] ∧ r2.vel = [] := by
  constructor
  · have hr := resetIntegration_eq st h.1 h.2.1
    have hw := wellFormed_reset h hr
    rw [hr, Option.some_bind,
      updateIntegration_of_stale st q_dot_ik current_q pos vel now h hq hp,
      updateIntegration_of_stale _ q_dot_ik current_q pos vel now hw hq hp]
    simp only [map_reset_idem hidem]
  · obtain ⟨r, e, v, p, w, hw, d, b⟩ :=
      updateIntegration_stale_post st q_dot_ik current_q pos vel now h hq hp
    refine ⟨r, e, v, p, w, fun q2 c2 pos2 vel2 now2 hq2 => ?_⟩
    obtain ⟨r2, e2, v2, p2, w2, -⟩ :=
      updateIntegration_warmup r.state q2 c2 pos2 vel2 now2 hw (by rw [d]; exact hq2) b
    exact ⟨r2, e2, v2, p2, w2⟩

/-- C4 at `warmState` with the exponential smoother, called 1 s after its last
update. -/
theorem stale_call_is_reset_then_call_witness :
    (∀ s, (MovingAvgExponential 1).reset ((MovingAvgExponential 1).reset s) =
      (MovingAvgExponential 1).reset s) ∧
    WellFormed warmState ∧ warmState.dof_ ≤ [(1 : ℚ)].length ∧
    1 - warmState.last_update_time_ > 1 / 2 ∧
    updateIntegration warmState [1] [0] [7] [8] 1 =
      (resetIntegration warmState).bind
        (fun s0 => updateIntegration s0 [1] [0] [7] [8] 1) :=
  ⟨fun _ => rfl, by decide, by decide, by norm_num [warmState],
    (stale_call_is_reset_then_call (fun _ => rfl) warmState [1] [0] [7] [8] 1 (by decide)
      (by decide) (by norm_num [warmState])).1⟩

/-- C5: with a smoother whose `reset` is idempotent, `resetIntegration()` is
idempotent on every well-formed object (the freshly constructed one included):
calling it a second time changes nothing; after it `vel_last_` and
`vel_before_last_` are empty and every velocity and position smoother has been
reset. -/
theorem resetIntegration_idempotent (hidem : ∀ s, M.reset (M.reset s) = M.reset s)
    (st : SimpsonIntegrator M) (h : WellFormed st) :
    ∃ s1, resetIntegration st = some s1 ∧ resetIntegration s1 = some s1 ∧
      s1.vel_last_ = [] ∧ s1.vel_before_last_ = [] ∧
      s1.ma_vel_ = st.ma_vel_.map M.reset ∧ s1.ma_ = st.ma_.map M.reset := by
  have hr := resetIntegration_eq st h.1 h.2.1
  have hw := wellFormed_reset h hr
  refine ⟨_, hr, ?_, rfl, rfl, rfl, rfl⟩
  rw [resetIntegration_eq _ hw.1 hw.2.1]
  simp only [map_reset_idem hidem]

/-- C5 at the freshly constructed three-joint object, before any update. -/
theorem resetIntegration_idempotent_witness :
    (∀ s, (MovingAvgExponential 1).reset ((MovingAvgExponential 1).reset s) =
      (MovingAvgExponential 1).reset s) ∧
    WellFormed (SimpsonIntegrator.new (MovingAvgExponential 1) 3) ∧
    ∃ s1, resetIntegration (SimpsonIntegrator.new (MovingAvgExponential 1) 3) = some s1 ∧
      resetIntegration s1 = some s1 ∧ s1.vel_last_ = [] ∧ s1.vel_before_last_ = [] ∧
      s1.ma_vel_ = (SimpsonIntegrator.new (MovingAvgExponential 1) 3).ma_vel_.map
        (MovingAvgExponential 1).reset ∧
      s1.ma_ = (SimpsonIntegrator.new (MovingAvgExponential 1) 3).ma_.map
        (MovingAvgExponential 1).reset :=
  ⟨fun _ => rfl, by decide,
    resetIntegration_idempotent (fun _ => rfl)
      (SimpsonIntegrator.new (MovingAvgExponential 1) 3) (by decide)⟩

/-! ## Validity flag and outputs -/

/-- C6, as stated, fails: with a smoother that needs two samples, the third call
on a new one-joint object has two history samples, its position smoother
reports no valid average after the candidate was added and `pos` stays empty,
yet the call returns `true`. -/
theorem valid_flag_with_cold_position_smoother :
    ∃ r1 r2 r3,
      updateIntegration (SimpsonIntegrator.new (MovingAvgExponential 2) 1) [1] [0] [] [] 0
        = some r1 ∧
      updateIntegration r1.state [1] [0] [] [] 0 = some r2 ∧ r2.state = coldState ∧
      updateIntegration coldState [1] [0] [] [] 0 = some r3 ∧
      r3.state.ma_.map (MovingAvgExponential 2).calcMovingAverage = [none] ∧
      r3.pos = [] ∧ r3.vel = [] ∧ ¬ r3.value_valid = false := by
  refine ⟨⟨false, [], [],
      { ma_vel_ := [ExpSmoother.mk (2 / 10) (1 / 5) 1], ma_ := [ExpSmoother.mk (2 / 10) 0 0],
        dof_ := 1, vel_last_ := [1], vel_before_last_ := [], last_update_time_ := 0,
        last_period_ := 0 }⟩,
    ⟨false, [], [], coldState⟩,
    ⟨true, [], [],
      { ma_vel_ := [ExpSmoother.mk (2 / 10) (61 / 125) 3],
        ma_ := [ExpSmoother.mk (2 / 10) 0 1],
        dof_ := 1, vel_last_ := [61 / 125], vel_before_last_ := [9 / 25],
        last_update_time_ := 0, last_period_ := 0 }⟩, ?_, ?_, rfl, ?_, ?_, rfl, rfl, ?_⟩
  · norm_num [updateIntegration, updateCycle, forLoop, smoothBody, pushBody, clear,
      SimpsonIntegrator.new, smoothedVel, MovingAvgExponential.create_eq,
      MovingAvgExponential.addElement_eq, MovingAvgExponential.calcMovingAverage_eq]
  · norm_num [updateIntegration, updateCycle, forLoop, smoothBody, pushBody, clear,
      coldState, smoothedVel, MovingAvgExponential.create_eq,
      MovingAvgExponential.addElement_eq, MovingAvgExponential.calcMovingAverage_eq]
  · norm_num [updateIntegration, updateCycle, forLoop, smoothBody, simpsonBody, pushBody,
      clear, coldState, smoothedVel, integration_value, MovingAvgExponential.create_eq,
      MovingAvgExponential.addElement_eq, MovingAvgExponential.calcMovingAverage_eq]
  · norm_num [MovingAvgExponential.calcMovingAverage_eq]
  · decide

/-- C6, amended: a call returns `false` exactly when it has fewer than two
history samples after its staleness check (period above 0.5 s, or
`vel_before_last_` empty); with two history samples it returns `true`, and `pos`
holds the averages of those position smoothers that report one, so that a
joint whose position smoother is not warmed up only contributes no entry. -/
theorem valid_flag_iff_history (st : SimpsonIntegrator M)
    (q_dot_ik current_q pos vel : List ℚ) (now : ℚ) (h : WellFormed st)
    (hq : st.dof_ ≤ q_dot_ik.length) (hc : st.dof_ ≤ current_q.length) :
    ∃ r, updateIntegration st q_dot_ik current_q pos vel now = some r ∧
      (r.value_valid = false ↔
        (now - st.last_update_time_ > 1 / 2 ∨ st.vel_before_last_ = [])) ∧
      (r.value_valid = true → r.pos = r.state.ma_.filterMap M.calcMovingAverage) := by
  obtain ⟨r, hr, -, -, -, -, -, hv, -⟩ :=
    updateIntegration_post st q_dot_ik current_q pos vel now h hq hc
  refine ⟨r, hr, ?_, ?_⟩
  · constructor
    · intro hf
      by_contra hcon
      rw [not_or] at hcon
      have ht := hv.mpr hcon
      rw [hf] at ht
      exact Bool.noConfusion ht
    · intro hor
      cases hb : r.value_valid
      · rfl
      · obtain ⟨n1, n2⟩ := hv.mp hb
        cases hor with
        | inl h1 => exact absurd h1 n1
        | inr h2 => exact absurd h2 n2
  · intro ht
    obtain ⟨n1, n2⟩ := hv.mp ht
    obtain ⟨r1, hr1, -, -, -, hpos, -⟩ :=
      updateIntegration_candidates st q_dot_ik current_q pos vel now h hq hc n1 n2
    rw [hr] at hr1
    cases hr1
    exact hpos

/-- C6 amended at `coldState`: the call has two history samples. -/
theorem valid_flag_iff_history_witness :
    WellFormed coldState ∧ coldState.dof_ ≤ [(1 : ℚ)].length ∧
    coldState.dof_ ≤ [(0 : ℚ)].length ∧
    ∃ r, updateIntegration coldState [1] [0] [] [] 0 = some r ∧
      (r.value_valid = false ↔
        (0 - coldState.last_update_time_ > 1 / 2 ∨ coldState.vel_before_last_ = [])) ∧
      (r.value_valid = true →
        r.pos = r.state.ma_.filterMap (MovingAvgExponential 2).calcMovingAverage) :=
  ⟨by decide, by decide, by decide,
    valid_flag_iff_history coldState [1] [0] [] [] 0 (by decide) (by decide) (by decide)⟩

/-- C7: `pos` and `vel` always have the same length, at most `dof`; in a cycle
with two historical samples they list, in joint order, exactly the joints whose
position smoother reports an average after this cycle's candidate was added:
`pos` holds that average and `vel` the joint's velocity of this cycle. -/
theorem outputs_list_valid_joints (st : SimpsonIntegrator M)
    (q_dot_ik current_q pos vel : List ℚ) (now : ℚ) (h : WellFormed st)
    (hq : st.dof_ ≤ q_dot_ik.length) (hc : st.dof_ ≤ current_q.length) :
    ∃ r, updateIntegration st q_dot_ik current_q pos vel now = some r ∧
      r.pos.length = r.vel.length ∧ r.pos.length ≤ st.dof_ ∧
      (¬ now - st.last_update_time_ > 1 / 2 → st.vel_before_last_ ≠ [] →
        r.state.ma_.length = st.dof_ ∧ r.state.vel_last_.length = st.dof_ ∧
        r.pos = r.state.ma_.filterMap M.calcMovingAverage ∧
        r.vel = (r.state.ma_.zip r.state.vel_last_).filterMap
          (fun p => (M.calcMovingAverage p.1).map (fun _ => p.2)) ∧
        ∀ i, i < st.dof_ → ∃ m cand, st.ma_[i]? = some m ∧
          r.state.ma_[i]? = some (M.addElement m cand)) := by
  obtain ⟨r, hr, -, -, hl, -, -, -, -, -, hsame, hle⟩ :=
    updateIntegration_post st q_dot_ik current_q pos vel now h hq hc
  refine ⟨r, hr, hsame, hle, fun hp hv => ?_⟩
  obtain ⟨r1, hr1, -, hlen, -, hpos, hvel, hcand⟩ :=
    updateIntegration_candidates st q_dot_ik current_q pos vel now h hq hc hp hv
  rw [hr] at hr1
  cases hr1
  refine ⟨hlen, hl, hpos, hvel, fun i hi => ?_⟩
  obtain ⟨v2, v1, mv, x, cq, m, -, -, -, -, -, g6, g7⟩ := hcand i hi
  exact ⟨m, _, g6, g7⟩

/-- C7 at `warmState`. -/
theorem outputs_list_valid_joints_witness :
    WellFormed warmState ∧ warmState.dof_ ≤ [(1 : ℚ)].length ∧
    warmState.dof_ ≤ [(0 : ℚ)].length ∧
    ∃ r, updateIntegration warmState [1] [0] [] [] 0 = some r ∧
      r.pos.length = r.vel.length ∧ r.pos.length ≤ warmState.dof_ ∧
      (¬ 0 - warmState.last_update_time_ > 1 / 2 → warmState.vel_before_last_ ≠ [] →
        r.state.ma_.length = warmState.dof_ ∧ r.state.vel_last_.length = warmState.dof_ ∧
        r.pos = r.state.ma_.filterMap (MovingAvgExponential 1).calcMovingAverage ∧
        r.vel = (r.state.ma_.zip r.state.vel_last_).filterMap
          (fun p => ((MovingAvgExponential 1).calcMovingAverage p.1).map (fun _ => p.2)) ∧
        ∀ i, i < warmState.dof_ → ∃ m cand, warmState.ma_[i]? = some m ∧
          r.state.ma_[i]? = some ((MovingAvgExponential 1).addElement m cand)) :=
  ⟨by decide, by decide, by decide,
    outputs_list_valid_joints warmState [1] [0] [] [] 0 (by decide) (by decide) (by decide)⟩

/-! ## Velocity smoothing and the history window -/

/-- The velocity smoothers and the recorded velocities after any call, in terms
of the velocity smoothers this cycle started from (reset first by a stale call). -/
theorem updateIntegration_velocities (st : SimpsonIntegrator M)
    (q_dot_ik current_q pos vel : List ℚ) (now : ℚ) (h : WellFormed st)
    (hq : st.dof_ ≤ q_dot_ik.length) (hc : st.dof_ ≤ current_q.length) :
    ∃ r, updateIntegration st q_dot_ik current_q pos vel now = some r ∧
      r.state.ma_vel_ = List.zipWith M.addElement
        (if now - st.last_update_time_ > 1 / 2 then st.ma_vel_.map M.reset else st.ma_vel_)
        q_dot_ik ∧
      r.state.vel_last_ = List.zipWith (smoothedVel M)
        (if now - st.last_update_time_ > 1 / 2 then st.ma_vel_.map M.reset else st.ma_vel_)
        q_dot_ik := by
  by_cases hp : now - st.last_update_time_ > 1 / 2
  · rw [if_pos hp]
    exact ⟨_, updateIntegration_of_stale st q_dot_ik current_q pos vel now h hq hp, rfl, rfl⟩
  · rw [if_neg hp]
    by_cases hv : st.vel_before_last_ = []
    · exact ⟨_, updateIntegration_of_noHistory st q_dot_ik current_q pos vel now h hq hp hv,
        rfl, rfl⟩
    · obtain ⟨ma1, pos1, vel1, -, hu⟩ :=
        updateIntegration_of_history st q_dot_ik current_q pos vel now h hq hc hp hv
      exact ⟨_, hu, rfl, rfl⟩

/-- C8: in every cycle and for every joint `i < dof`, the raw sample
`q_dot_ik(i)` is added once to the joint's velocity smoother (reset first when
the call is stale), and the velocity recorded as history is the smoother's
average when it reports one and the raw sample otherwise; in a cycle with two
historical samples this same velocity enters the Simpson formula and the `vel`
output. -/
theorem velocity_smoothed_or_raw (st : SimpsonIntegrator M)
    (q_dot_ik current_q pos vel : List ℚ) (now : ℚ) (h : WellFormed st)
    (hq : st.dof_ ≤ q_dot_ik.length) (hc : st.dof_ ≤ current_q.length) :
    ∃ r, updateIntegration st q_dot_ik current_q pos vel now = some r ∧
      (∀ i, i < st.dof_ → ∃ m0 x v0, st.ma_vel_[i]? = some m0 ∧ q_dot_ik[i]? = some x ∧
        r.state.ma_vel_[i]? = some (M.addElement
          (if now - st.last_update_time_ > 1 / 2 then M.reset m0 else m0) x) ∧
        r.state.vel_last_[i]? = some v0 ∧
        v0 = (match M.calcMovingAverage (M.addElement
            (if now - st.last_update_time_ > 1 / 2 then M.reset m0 else m0) x) with
          | some avg_vel => avg_vel
          | none => x) ∧
        (¬ now - st.last_update_time_ > 1 / 2 → st.vel_before_last_ ≠ [] →
          ∃ v2 v1 cq m, st.vel_before_last_[i]? = some v2 ∧ st.vel_last_[i]? = some v1 ∧
            current_q[i]? = some cq ∧ st.ma_[i]? = some m ∧
            r.state.ma_[i]? = some (M.addElement m
              (integration_value (now - st.last_update_time_) v2 v1 v0 cq)))) ∧
      (¬ now - st.last_update_time_ > 1 / 2 → st.vel_before_last_ ≠ [] →
        r.vel = (r.state.ma_.zip r.state.vel_last_).filterMap
          (fun p => (M.calcMovingAverage p.1).map (fun _ => p.2))) := by
  obtain ⟨r, hr, hma, hvl⟩ :=
    updateIntegration_velocities st q_dot_ik current_q pos vel now h hq hc
  have m1 : st.ma_vel_.length = st.dof_ := h.1
  refine ⟨r, hr, fun i hi => ?_, fun hp hv => ?_⟩
  · have b4 : i < q_dot_ik.length := Nat.lt_of_lt_of_le hi hq
    have g3 : st.ma_vel_[i]? = some st.ma_vel_[i] := List.getElem?_eq_getElem (by omega)
    have g4 : q_dot_ik[i]? = some q_dot_ik[i] := List.getElem?_eq_getElem b4
    refine ⟨st.ma_vel_[i], q_dot_ik[i], _, g3, g4, ?_, ?_, rfl, fun hp hv => ?_⟩
    · rw [hma, List.getElem?_zipWith]
      by_cases hp : now - st.last_update_time_ > 1 / 2
      · simp only [if_pos hp, List.getElem?_map, g3, g4, Option.map_some']
      · simp only [if_neg hp, g3, g4]
    · rw [hvl, List.getElem?_zipWith]
      by_cases hp : now - st.last_update_time_ > 1 / 2
      · simp only [if_pos hp, List.getElem?_map, g3, g4, Option.map_some']
        rfl
      · simp only [if_neg hp, g3, g4]
        rfl
    · obtain ⟨r1, hr1, -, -, -, -, -, hcand⟩ :=
        updateIntegration_candidates st q_dot_ik current_q pos vel now h hq hc hp hv
      rw [hr] at hr1
      cases hr1
      obtain ⟨v2, v1, mv, x, cq, m, g1, g2, g3a, g4a, g5, g6, g7⟩ := hcand i hi
      rw [g3] at g3a
      rw [g4] at g4a
      cases g3a
      cases g4a
      refine ⟨v2, v1, cq, m, g1, g2, g5, g6, ?_⟩
      rw [g7, if_neg hp]
      rfl
  · obtain ⟨r1, hr1, -, -, -, -, hvel, -⟩ :=
      updateIntegration_candidates st q_dot_ik current_q pos vel now h hq hc hp hv
    rw [hr] at hr1
    cases hr1
    exact hvel

/-- C8 at `warmState`. -/
theorem velocity_smoothed_or_raw_witness :
    WellFormed warmState ∧ warmState.dof_ ≤ [(1 : ℚ)].length ∧
    warmState.dof_ ≤ [(0 : ℚ)].length ∧
    ∃ r, updateIntegration warmState [1] [0] [] [] 0 = some r ∧
      (∀ i, i < warmState.dof_ → ∃ m0 x v0, warmState.ma_vel_[i]? = some m0 ∧
        [(1 : ℚ)][i]? = some x ∧
        r.state.ma_vel_[i]? = some ((MovingAvgExponential 1).addElement
          (if 0 - warmState.last_update_time_ > 1 / 2 then (MovingAvgExponential 1).reset m0
            else m0) x) ∧
        r.state.vel_last_[i]? = some v0 ∧
        v0 = (match (MovingAvgExponential 1).calcMovingAverage
            ((MovingAvgExponential 1).addElement
              (if 0 - warmState.last_update_time_ > 1 / 2 then
                (MovingAvgExponential 1).reset m0 else m0) x) with
          | some avg_vel => avg_vel
          | none => x) ∧
        (¬ 0 - warmState.last_update_time_ > 1 / 2 → warmState.vel_before_last_ ≠ [] →
          ∃ v2 v1 cq m, warmState.vel_before_last_[i]? = some v2 ∧
            warmState.vel_last_[i]? = some v1 ∧
            [(0 : ℚ)][i]? = some cq ∧ warmState.ma_[i]? = some m ∧
            r.state.ma_[i]? = some ((MovingAvgExponential 1).addElement m
              (integration_value (0 - warmState.last_update_time_) v2 v1 v0 cq)))) ∧
      (¬ 0 - warmState.last_update_time_ > 1 / 2 → warmState.vel_before_last_ ≠ [] →
        r.vel = (r.state.ma_.zip r.state.vel_last_).filterMap
          (fun p => ((MovingAvgExponential 1).calcMovingAverage p.1).map (fun _ => p.2))) :=
  ⟨by decide, by decide, by decide,
    velocity_smoothed_or_raw warmState [1] [0] [] [] 0 (by decide) (by decide) (by decide)⟩

/-- C9: a call whose period is at most 0.5 s (zero and negative periods
included) shifts the two-sample window, whether it returns a valid output or
not: `vel_before_last_` becomes the previous `vel_last_`, and `vel_last_`
becomes this cycle's `dof` smoothed velocities; the previous `vel_before_last_`
does not survive. -/
theorem history_window_shift (st : SimpsonIntegrator M)
    (q_dot_ik current_q pos vel : List ℚ) (now : ℚ) (h : WellFormed st)
    (hq : st.dof_ ≤ q_dot_ik.length) (hc : st.dof_ ≤ current_q.length)
    (hp : now - st.last_update_time_ ≤ 1 / 2) :
    ∃ r, updateIntegration st q_dot_ik current_q pos vel now = some r ∧
      r.state.vel_before_last_ = st.vel_last_ ∧
      r.state.vel_last_ = List.zipWith (smoothedVel M) st.ma_vel_ q_dot_ik ∧
      r.state.vel_last_.length = st.dof_ := by
  have hn : ¬ now - st.last_update_time_ > 1 / 2 := not_lt.mpr hp
  obtain ⟨r, hr, -, -, hl, -, -, -, hshift, -⟩ :=
    updateIntegration_post st q_dot_ik current_q pos vel now h hq hc
  obtain ⟨r1, hr1, -, hvl⟩ :=
    updateIntegration_velocities st q_dot_ik current_q pos vel now h hq hc
  rw [hr] at hr1
  cases hr1
  rw [if_neg hn] at hvl
  exact ⟨r, hr, hshift hn, hvl, hl⟩

/-- C9 at `warmState`, called with a period of exactly 0.5 s. -/
theorem history_window_shift_witness :
    WellFormed warmState ∧ warmState.dof_ ≤ [(1 : ℚ)].length ∧
    warmState.dof_ ≤ [(0 : ℚ)].length ∧ 1 / 2 - warmState.last_update_time_ ≤ 1 / 2 ∧
    ∃ r, updateIntegration warmState [1] [0] [] [] (1 / 2) = some r ∧
      r.state.vel_before_last_ = warmState.vel_last_ ∧
      r.state.vel_last_ =
        List.zipWith (smoothedVel (MovingAvgExponential 1)) warmState.ma_vel_ [1] ∧
      r.state.vel_last_.length = warmState.dof_ :=
  ⟨by decide, by decide, by decide, by norm_num [warmState],
    history_window_shift warmState [1] [0] [] [] (1 / 2) (by decide) (by decide) (by decide)
      (by norm_num [warmState])⟩

/-! ## Reachable objects -/

theorem reachable_wellFormed {n : Nat} {st : SimpsonIntegrator M} (hr : Reachable M n st) :
    WellFormed st ∧ st.dof_ = n := by
  induction hr with
  | construct => exact ⟨wellFormed_new M n, rfl⟩
  | reset _ he ih =>
    have hw := wellFormed_reset ih.1 he
    rw [resetIntegration_eq _ ih.1.1 ih.1.2.1] at he
    cases he
    exact ⟨hw, ih.2⟩
  | update q c pos vel now _ hq hc he ih =>
    obtain ⟨hw, hd⟩ := wellFormed_update q c pos vel now ih.1 (by rw [ih.2]; exact hq)
      (by rw [ih.2]; exact hc) he
    exact ⟨hw, hd.trans ih.2⟩

theorem warmState_reachable : Reachable (MovingAvgExponential 1) 1 warmState := by
  have e1 : updateIntegration (SimpsonIntegrator.new (MovingAvgExponential 1) 1) [1] [0] [] [] 0
      = some ⟨false, [], [],
        { ma_vel_ := [ExpSmoother.mk (2 / 10) (1 / 5) 1], ma_ := [ExpSmoother.mk (2 / 10) 0 0],
          dof_ := 1, vel_last_ := [1 / 5], vel_before_last_ := [], last_update_time_ := 0,
          last_period_ := 0 }⟩ := by
    norm_num [updateIntegration, updateCycle, forLoop, smoothBody, pushBody, clear,
      SimpsonIntegrator.new, smoothedVel, MovingAvgExponential.create_eq,
      MovingAvgExponential.addElement_eq, MovingAvgExponential.calcMovingAverage_eq]
  have r1 := Reachable.update [1] [0] [] [] 0 Reachable.construct (by decide) (by decide) e1
  have e2 : updateIntegration
      ({ ma_vel_ := [ExpSmoother.mk (2 / 10) (1 / 5) 1], ma_ := [ExpSmoother.mk (2 / 10) 0 0],
          dof_ := 1, vel_last_ := [1 / 5], vel_before_last_ := [], last_update_time_ := 0,
          last_period_ := 0 } : SimpsonIntegrator (MovingAvgExponential 1)) [1] [0] [] [] 0
      = some ⟨false, [], [], warmState⟩ := by
    norm_num [updateIntegration, updateCycle, forLoop, smoothBody, pushBody, clear,
      warmState, smoothedVel, MovingAvgExponential.create_eq,
      MovingAvgExponential.addElement_eq, MovingAvgExponential.calcMovingAverage_eq]
  exact Reachable.update [1] [0] [] [] 0 r1 (by decide) (by decide) e2

/-- C10: in every state reachable from construction with `dof = n` by
`resetIntegration` and `updateIntegration` calls with at least `n` input rows,
a call of `updateIntegration` with at least `n` input rows stays in bounds at
every index access, for every clock reading; `vel_last_` and `vel_before_last_`
are each empty or of length `n`, and `vel_last_` is non-empty whenever
`vel_before_last_` is. -/
theorem updateIntegration_in_bounds (n : Nat) (st : SimpsonIntegrator M)
    (q_dot_ik current_q pos vel : List ℚ) (now : ℚ) (hr : Reachable M n st)
    (hq : n ≤ q_dot_ik.length) (hc : n ≤ current_q.length) :
    (∃ r, updateIntegration st q_dot_ik current_q pos vel now = some r) ∧
    (st.vel_last_ = [] ∨ st.vel_last_.length = n) ∧
    (st.vel_before_last_ = [] ∨ st.vel_before_last_.length = n) ∧
    (st.vel_before_last_ ≠ [] → st.vel_last_ ≠ []) := by
  obtain ⟨hw, hd⟩ := reachable_wellFormed hr
  refine ⟨updateIntegration_total st q_dot_ik current_q pos vel now hw (by rw [hd]; exact hq)
    (by rw [hd]; exact hc), ?_, ?_, hw.2.2.2.2⟩
  · rw [← hd]; exact hw.2.2.1
  · rw [← hd]; exact hw.2.2.2.1

/-- C10 at `warmState`, called a million seconds before its last update. -/
theorem updateIntegration_in_bounds_witness :
    Reachable (MovingAvgExponential 1) 1 warmState ∧ 1 ≤ [(1 : ℚ)].length ∧
    1 ≤ [(0 : ℚ)].length ∧
    (∃ r, updateIntegration warmState [1] [0] [] [] (-1000000) = some r) ∧
    (warmState.vel_last_ = [] ∨ warmState.vel_last_.length = 1) ∧
    (warmState.vel_before_last_ = [] ∨ warmState.vel_before_last_.length = 1) ∧
    (warmState.vel_before_last_ ≠ [] → warmState.vel_last_ ≠ []) :=
  ⟨warmState_reachable, by decide, by decide,
    updateIntegration_in_bounds 1 warmState [1] [0] [] [] (-1000000) warmState_reachable
      (by decide) (by decide)⟩

/-! ## Bookkeeping of the clock -/

/-- C13: every call, valid or not, stale or not, ends with `last_update_time_`
equal to the clock reading of the call and `last_period_` equal to that reading
minus the previous `last_update_time_`; the staleness check of the next call
compares its clock reading against the reading of this call. -/
theorem clock_reading_recorded (st : SimpsonIntegrator M)
    (q_dot_ik current_q pos vel : List ℚ) (now : ℚ) (h : WellFormed st)
    (hq : st.dof_ ≤ q_dot_ik.length) (hc : st.dof_ ≤ current_q.length) :
    ∃ r, updateIntegration st q_dot_ik current_q pos vel now = some r ∧
      r.state.last_update_time_ = now ∧
      r.state.last_period_ = now - st.last_update_time_ ∧
      ∀ (q2 c2 pos2 vel2 : List ℚ) (now2 : ℚ),
        updateIntegration r.state q2 c2 pos2 vel2 now2 =
          (if now2 - now > 1 / 2 then resetIntegration r.state else some r.state).bind
            (fun s => updateCycle s q2 c2 [] [] now2 (now2 - now)) := by
  obtain ⟨r, hr, -, -, -, ht, hper, -⟩ :=
    updateIntegration_post st q_dot_ik current_q pos vel now h hq hc
  refine ⟨r, hr, ht, hper, fun q2 c2 pos2 vel2 now2 => ?_⟩
  simp only [updateIntegration, ht, clear]

/-- C13 at `warmState`, called 1 s after its last update (a stale call). -/
theorem clock_reading_recorded_witness :
    WellFormed warmState ∧ warmState.dof_ ≤ [(1 : ℚ)].length ∧
    warmState.dof_ ≤ [(0 : ℚ)].length ∧
    ∃ r, updateIntegration warmState [1] [0] [] [] 1 = some r ∧
      r.state.last_update_time_ = 1 ∧
      r.state.last_period_ = 1 - warmState.last_update_time_ ∧
      ∀ (q2 c2 pos2 vel2 : List ℚ) (now2 : ℚ),
        updateIntegration r.state q2 c2 pos2 vel2 now2 =
          (if now2 - 1 > 1 / 2 then resetIntegration r.state else some r.state).bind
            (fun s => updateCycle s q2 c2 [] [] now2 (now2 - 1)) :=
  ⟨by decide, by decide, by decide,
    clock_reading_recorded warmState [1] [0] [] [] 1 (by decide) (by decide) (by decide)⟩

/-! ## Weights of the integration formula -/

/-- C15: in a cycle with two historical samples the candidate of joint `i`
exceeds `current_q(i)` by `T * (6*v2 + 5*v1 + v0) / 6` over the rationals (the
weights add up to 12), so that three equal velocities `v` give the candidate
`current_q(i) + 2*T*v`, whatever the period `T`. -/
theorem simpson_weights_sum_to_twelve (st : SimpsonIntegrator M)
    (q_dot_ik current_q pos vel : List ℚ) (now : ℚ) (h : WellFormed st)
    (hq : st.dof_ ≤ q_dot_ik.length) (hc : st.dof_ ≤ current_q.length)
    (hp : ¬ now - st.last_update_time_ > 1 / 2) (hv : st.vel_before_last_ ≠ []) :
    ∃ r, updateIntegration st q_dot_ik current_q pos vel now = some r ∧
      ∀ i, i < st.dof_ → ∃ v2 v1 v0 q m cand,
        st.vel_before_last_[i]? = some v2 ∧ st.vel_last_[i]? = some v1 ∧
        r.state.vel_last_[i]? = some v0 ∧ current_q[i]? = some q ∧ st.ma_[i]? = some m ∧
        r.state.ma_[i]? = some (M.addElement m cand) ∧
        cand - q = (now - st.last_update_time_) * (6 * v2 + 5 * v1 + v0) / 6 ∧
        (∀ v, v2 = v → v1 = v → v0 = v → cand = q + 2 * (now - st.last_update_time_) * v) := by
  obtain ⟨r, hr, -, -, hvl, -, -, hcand⟩ :=
    updateIntegration_candidates st q_dot_ik current_q pos vel now h hq hc hp hv
  refine ⟨r, hr, fun i hi => ?_⟩
  obtain ⟨v2, v1, mv, x, cq, m, g1, g2, g3, g4, g5, g6, g7⟩ := hcand i hi
  refine ⟨v2, v1, smoothedVel M mv x, cq, m, _, g1, g2, ?_, g5, g6, g7, ?_, ?_⟩
  · rw [hvl, List.getElem?_zipWith, g3, g4]
  · unfold integration_value
    ring
  · intro v e2 e1 e0
    rw [e0]
    subst e2 e1
    unfold integration_value
    ring

/-- C15 at `steadyState`, fed velocity 1 a tenth of a second after its last update. -/
theorem simpson_weights_sum_to_twelve_witness :
    WellFormed steadyState ∧ steadyState.dof_ ≤ [(1 : ℚ)].length ∧
    steadyState.dof_ ≤ [(3 : ℚ)].length ∧
    ¬ 1 / 10 - steadyState.last_update_time_ > 1 / 2 ∧ steadyState.vel_before_last_ ≠ [] ∧
    ∃ r, updateIntegration steadyState [1] [3] [] [] (1 / 10) = some r ∧
      ∀ i, i < steadyState.dof_ → ∃ v2 v1 v0 q m cand,
        steadyState.vel_before_last_[i]? = some v2 ∧ steadyState.vel_last_[i]? = some v1 ∧
        r.state.vel_last_[i]? = some v0 ∧ [(3 : ℚ)][i]? = some q ∧
        steadyState.ma_[i]? = some m ∧
        r.state.ma_[i]? = some ((MovingAvgExponential 1).addElement m cand) ∧
        cand - q = (1 / 10 - steadyState.last_update_time_) * (6 * v2 + 5 * v1 + v0) / 6 ∧
        (∀ v, v2 = v → v1 = v → v0 = v →
          cand = q + 2 * (1 / 10 - steadyState.last_update_time_) * v) :=
  ⟨by decide, by decide, by decide, by norm_num [steadyState], by decide,
    simpson_weights_sum_to_twelve steadyState [1] [3] [] [] (1 / 10) (by decide) (by decide)
      (by decide) (by norm_num [steadyState]) (by decide)⟩

theorem steadyState_reachable : Reachable (MovingAvgExponential 1) 1 steadyState := by
  have e1 : updateIntegration (SimpsonIntegrator.new (MovingAvgExponential 1) 1) [5] [0] [] [] 0
      = some ⟨false, [], [],
        { ma_vel_ := [ExpSmoother.mk (2 / 10) 1 1], ma_ := [ExpSmoother.mk (2 / 10) 0 0],
          dof_ := 1, vel_last_ := [1], vel_before_last_ := [], last_update_time_ := 0,
          last_period_ := 0 }⟩ := by
    norm_num [updateIntegration, updateCycle, forLoop, smoothBody, pushBody, clear,
      SimpsonIntegrator.new, smoothedVel, MovingAvgExponential.create_eq,
      MovingAvgExponential.addElement_eq, MovingAvgExponential.calcMovingAverage_eq]
  have r1 := Reachable.update [5] [0] [] [] 0 Reachable.construct (by decide) (by decide) e1
  have e2 : updateIntegration
      ({ ma_vel_ := [ExpSmoother.mk (2 / 10) 1 1], ma_ := [ExpSmoother.mk (2 / 10) 0 0],
          dof_ := 1, vel_last_ := [1], vel_before_last_ := [], last_update_time_ := 0,
          last_period_ := 0 } : SimpsonIntegrator (MovingAvgExponential 1)) [1] [0] [] [] 0
      = some ⟨false, [], [], steadyState⟩ := by
    norm_num [updateIntegration, updateCycle, forLoop, smoothBody, pushBody, clear,
      steadyState, smoothedVel, MovingAvgExponential.create_eq,
      MovingAvgExponential.addElement_eq, MovingAvgExponential.calcMovingAverage_eq]
  exact Reachable.update [1] [0] [] [] 0 r1 (by decide) (by decide) e2

/-- The candidate of `steadyState` for velocity 1, measured position 3 and a
period of a tenth of a second is `3 + 2 * (1/10) * 1`. -/
theorem steadyState_candidate :
    ∃ r, updateIntegration steadyState [1] [3] [] [] (1 / 10) = some r ∧
      r.state.ma_ = [(MovingAvgExponential 1).addElement (ExpSmoother.mk (2 / 10) 0 0)
        (3 + 2 * (1 / 10) * 1)] ∧ r.state.vel_last_ = [1] := by
  refine ⟨⟨true, [16 / 25], [1],
    { ma_vel_ := [ExpSmoother.mk (2 / 10) 1 3], ma_ := [ExpSmoother.mk (2 / 10) (16 / 25) 1],
      dof_ := 1, vel_last_ := [1], vel_before_last_ := [1], last_update_time_ := 1 / 10,
      last_period_ := 1 / 10 }⟩, ?_, ?_, rfl⟩
  · norm_num [updateIntegration, updateCycle, forLoop, smoothBody, simpsonBody, pushBody,
      clear, steadyState, smoothedVel, integration_value, MovingAvgExponential.create_eq,
      MovingAvgExponential.addElement_eq, MovingAvgExponential.calcMovingAverage_eq]
  · norm_num [MovingAvgExponential.addElement_eq]

/-! ## Runs of calls -/

theorem runCalls_cons (st : SimpsonIntegrator M) (c : Call) (cs : List Call)
    (r : UpdateResult M) (rs : List (UpdateResult M))
    (h1 : updateIntegration st c.q_dot_ik c.current_q c.pos c.vel c.now = some r)
    (h2 : runCalls r.state cs = some rs) : runCalls st (c :: cs) = some (r :: rs) := by
  simp only [runCalls, h1, Option.some_bind, h2, Option.map_some']

/-- Calls that all come within the threshold: from the first result on, the
result number `j` is valid exactly when the object held `2 - j` samples or more. -/
theorem runCalls_valid_iff (calls : List Call) :
    ∀ (st : SimpsonIntegrator M), WellFormed st → 1 ≤ st.dof_ →
      (∀ c ∈ calls, st.dof_ ≤ c.q_dot_ik.length ∧ st.dof_ ≤ c.current_q.length) →
      List.Chain (fun a b : ℚ => b - a ≤ 1 / 2) st.last_update_time_ (calls.map Call.now) →
      ∃ rs, runCalls st calls = some rs ∧ rs.length = calls.length ∧
        ∀ j r, rs[j]? = some r → (r.value_valid = true ↔ 2 ≤ historySamples st + j) := by
  induction calls with
  | nil =>
    intro st _ _ _ _
    exact ⟨[], rfl, rfl, fun j r hj => by simp at hj⟩
  | cons c cs ih =>
    intro st h hdof hrows hchain
    rw [List.map_cons, List.chain_cons] at hchain
    obtain ⟨hfirst, hrest⟩ := hchain
    have hn : ¬ c.now - st.last_update_time_ > 1 / 2 := not_lt.mpr hfirst
    obtain ⟨hq, hc⟩ := hrows c (List.mem_cons_self c cs)
    obtain ⟨r, hr, hw, hd, hl, ht, -, hv, hshift, -⟩ :=
      updateIntegration_post st c.q_dot_ik c.current_q c.pos c.vel c.now h hq hc
    have hrows1 : ∀ c1 ∈ cs, r.state.dof_ ≤ c1.q_dot_ik.length ∧
        r.state.dof_ ≤ c1.current_q.length := by
      intro c1 hc1
      rw [hd]
      exact hrows c1 (List.mem_cons_of_mem c hc1)
    obtain ⟨rs, hrs, hlen, hval⟩ := ih r.state hw (by rw [hd]; exact hdof) hrows1
      (by rw [ht]; exact hrest)
    have hvl : r.state.vel_last_ ≠ [] := by
      intro hnil
      rw [hnil] at hl
      have : st.dof_ = 0 := hl.symm
      omega
    have hvbl : r.state.vel_before_last_ = st.vel_last_ := hshift hn
    have hs1 : historySamples r.state = 1 + (if st.vel_last_ = [] then 0 else 1) := by
      unfold historySamples
      rw [if_neg hvl, hvbl]
    refine ⟨r :: rs, runCalls_cons st c cs r rs hr hrs, by simp [hlen], fun j r1 hj => ?_⟩
    cases j with
    | zero =>
      simp only [List.getElem?_cons_zero, Option.some.injEq] at hj
      subst hj
      rw [hv]
      unfold historySamples
      by_cases e1 : st.vel_before_last_ = []
      · rw [if_pos e1]
        constructor
        · intro hh; exact absurd e1 hh.2
        · intro hh
          by_cases e2 : st.vel_last_ = []
          · rw [if_pos e2] at hh; omega
          · rw [if_neg e2] at hh; omega
      · have e2 : st.vel_last_ ≠ [] := h.2.2.2.2 e1
        rw [if_neg e1, if_neg e2]
        exact ⟨fun _ => by omega, fun _ => ⟨hn, e1⟩⟩
    | succ j =>
      simp only [List.getElem?_cons_succ] at hj
      rw [hval j r1 hj, hs1]
      unfold historySamples
      by_cases e2 : st.vel_last_ = []
      · have e1 : st.vel_before_last_ = [] := by
          by_contra hne
          exact h.2.2.2.2 hne e2
        simp only [e1, e2, if_true]
        omega
      · simp only [e2, if_false]
        constructor <;> intro _ <;> omega

/-- Without joints no call is ever valid. -/
theorem runCalls_no_joint (calls : List Call) :
    ∀ (st : SimpsonIntegrator M), WellFormed st → st.dof_ = 0 →
      ∃ rs, runCalls st calls = some rs ∧ rs.length = calls.length ∧
        ∀ r ∈ rs, r.value_valid = false := by
  induction calls with
  | nil =>
    intro st _ _
    exact ⟨[], rfl, rfl, fun r hr => by simp at hr⟩
  | cons c cs ih =>
    intro st h hdof
    obtain ⟨r, hr, hw, hd, -, -, -, hv, -⟩ :=
      updateIntegration_post st c.q_dot_ik c.current_q c.pos c.vel c.now h
        (by rw [hdof]; exact Nat.zero_le _) (by rw [hdof]; exact Nat.zero_le _)
    obtain ⟨rs, hrs, hlen, hval⟩ := ih r.state hw (hd.trans hdof)
    have hvbl : st.vel_before_last_ = [] := by
      cases h.2.2.2.1 with
      | inl e => exact e
      | inr e => exact List.eq_nil_of_length_eq_zero (e.trans hdof)
    have hfalse : r.value_valid = false := by
      cases hb : r.value_valid
      · rfl
      · exact absurd hvbl (hv.mp hb).2
    refine ⟨r :: rs, runCalls_cons st c cs r rs hr hrs, by simp [hlen], fun r1 hr1 => ?_⟩
    cases List.mem_cons.mp hr1 with
    | inl e => rw [e]; exact hfalse
    | inr e => exact hval r1 e

/-- The first call of a run on an object without history, stale or not, leaves
an object with one history sample. -/
theorem first_call_records_one_sample (st : SimpsonIntegrator M) (c : Call)
    (h : WellFormed st) (hdof : 1 ≤ st.dof_) (hl : st.vel_last_ = [])
    (hb : st.vel_before_last_ = [])
    (hq : st.dof_ ≤ c.q_dot_ik.length) (hc : st.dof_ ≤ c.current_q.length) :
    ∃ r, updateIntegration st c.q_dot_ik c.current_q c.pos c.vel c.now = some r ∧
      r.value_valid = false ∧ WellFormed r.state ∧ r.state.dof_ = st.dof_ ∧
      r.state.last_update_time_ = c.now ∧ historySamples r.state = 1 := by
  obtain ⟨r, hr, hw, hd, hlen, ht, -, hv, hshift, hstale, -⟩ :=
    updateIntegration_post st c.q_dot_ik c.current_q c.pos c.vel c.now h hq hc
  have hfalse : r.value_valid = false := by
    cases hb1 : r.value_valid
    · rfl
    · exact absurd hb (hv.mp hb1).2
  have hvl : r.state.vel_last_ ≠ [] := by
    intro hnil
    rw [hnil] at hlen
    have : st.dof_ = 0 := hlen.symm
    omega
  have hvbl : r.state.vel_before_last_ = [] := by
    by_cases hp : c.now - st.last_update_time_ > 1 / 2
    · exact hstale hp
    · rw [hshift hp]; exact hl
  refine ⟨r, hr, hfalse, hw, hd, ht, ?_⟩
  unfold historySamples
  rw [if_neg hvl, if_pos hvbl]

/-- C14: the warm-up lasts exactly two cycles. On the freshly constructed object
or on an object just reset, with at least one joint, in a run of calls none of
which, the first apart, has a period above 0.5 s, the first and the second call
return `false` and the third and every later call return `true`; without
joints every call of every run returns `false`. -/
theorem warmup_lasts_two_cycles (st : SimpsonIntegrator M) (calls : List Call)
    (hstart : st = SimpsonIntegrator.new M st.dof_ ∨
      ∃ s0, WellFormed s0 ∧ resetIntegration s0 = some st)
    (hrows : ∀ c ∈ calls, st.dof_ ≤ c.q_dot_ik.length ∧ st.dof_ ≤ c.current_q.length) :
    ∃ rs, runCalls st calls = some rs ∧ rs.length = calls.length ∧
      (1 ≤ st.dof_ → List.Chain' (fun a b : Call => b.now - a.now ≤ 1 / 2) calls →
        ∀ j r, rs[j]? = some r → (r.value_valid = true ↔ 2 ≤ j)) ∧
      (st.dof_ = 0 → ∀ r ∈ rs, r.value_valid = false) := by
  have hfacts : WellFormed st ∧ st.vel_last_ = [] ∧ st.vel_before_last_ = [] := by
    cases hstart with
    | inl e =>
      rw [e]
      exact ⟨wellFormed_new M st.dof_, rfl, rfl⟩
    | inr e =>
      obtain ⟨s0, hw0, hr0⟩ := e
      have hw := wellFormed_reset hw0 hr0
      rw [resetIntegration_eq s0 hw0.1 hw0.2.1] at hr0
      cases hr0
      exact ⟨hw, rfl, rfl⟩
  obtain ⟨h, hl, hb⟩ := hfacts
  by_cases hdof : st.dof_ = 0
  · obtain ⟨rs, hrs, hlen, hval⟩ := runCalls_no_joint calls st h hdof
    exact ⟨rs, hrs, hlen, fun h1 => by omega, fun _ => hval⟩
  · have hpos : 1 ≤ st.dof_ := Nat.one_le_iff_ne_zero.mpr hdof
    cases calls with
    | nil => exact ⟨[], rfl, rfl, fun _ _ j r hj => by simp at hj, fun _ r hr => by simp at hr⟩
    | cons c cs =>
      obtain ⟨hq, hc⟩ := hrows c (List.mem_cons_self c cs)
      obtain ⟨r, hr, hfalse, hw, hd, ht, hs⟩ :=
        first_call_records_one_sample st c h hpos hl hb hq hc
      have hrows1 : ∀ c1 ∈ cs, r.state.dof_ ≤ c1.q_dot_ik.length ∧
          r.state.dof_ ≤ c1.current_q.length := by
        intro c1 hc1
        rw [hd]
        exact hrows c1 (List.mem_cons_of_mem c hc1)
      -- the remaining calls need not be timely for the run to succeed
      have htotal : ∀ (l : List Call) (s : SimpsonIntegrator M), WellFormed s →
          (∀ c1 ∈ l, s.dof_ ≤ c1.q_dot_ik.length ∧ s.dof_ ≤ c1.current_q.length) →
          ∃ rs, runCalls s l = some rs ∧ rs.length = l.length := by
        intro l
        induction l with
        | nil => intro s _ _; exact ⟨[], rfl, rfl⟩
        | cons a l ih =>
          intro s hs hr
          obtain ⟨ha1, ha2⟩ := hr a (List.mem_cons_self a l)
          obtain ⟨r2, hr2, hw2, hd2, -⟩ :=
            updateIntegration_post s a.q_dot_ik a.current_q a.pos a.vel a.now hs ha1 ha2
          obtain ⟨rs2, hrs2, hlen2⟩ := ih r2.state hw2 (by
            intro c1 hc1
            rw [hd2]
            exact hr c1 (List.mem_cons_of_mem a hc1))
          exact ⟨r2 :: rs2, runCalls_cons s a l r2 rs2 hr2 hrs2, by simp [hlen2]⟩
      obtain ⟨rs, hrs, hlen⟩ := htotal cs r.state hw hrows1
      refine ⟨r :: rs, runCalls_cons st c cs r rs hr hrs, by simp [hlen], ?_,
        fun h0 => absurd h0 hdof⟩
      intro _ hchain j r1 hj
      have hchain1 : List.Chain (fun a b : ℚ => b - a ≤ 1 / 2) r.state.last_update_time_
          (cs.map Call.now) := by
        rw [ht]
        exact (List.chain_map Call.now).mpr hchain
      obtain ⟨rs1, hrs1, -, hval⟩ :=
        runCalls_valid_iff cs r.state hw (by rw [hd]; exact hpos) hrows1 hchain1
      rw [hrs] at hrs1
      cases hrs1
      cases j with
      | zero =>
        simp only [List.getElem?_cons_zero, Option.some.injEq] at hj
        subst hj
        rw [hfalse]
        exact ⟨fun hh => Bool.noConfusion hh, fun hh => by omega⟩
      | succ j =>
        simp only [List.getElem?_cons_succ] at hj
        rw [hval j r1 hj, hs]
        omega

/-- C14 on the freshly constructed one-joint object, for five calls of which
the first comes 100 s after construction and the others 0.5 s apart. -/
theorem warmup_lasts_two_cycles_witness :
    (SimpsonIntegrator.new (MovingAvgExponential 1) 1 =
        SimpsonIntegrator.new (MovingAvgExponential 1)
          (SimpsonIntegrator.new (MovingAvgExponential 1) 1).dof_ ∨
      ∃ s0, WellFormed s0 ∧
        resetIntegration s0 = some (SimpsonIntegrator.new (MovingAvgExponential 1) 1)) ∧
    ∃ rs, runCalls (SimpsonIntegrator.new (MovingAvgExponential 1) 1)
        [⟨[1], [0], [], [], 100⟩, ⟨[1], [0], [], [], 100 + 1 / 2⟩, ⟨[1], [0], [], [], 101⟩,
          ⟨[1], [0], [], [], 101 + 1 / 2⟩, ⟨[1], [0], [], [], 102⟩] = some rs ∧
      rs.length = 5 ∧
      ∀ j r, rs[j]? = some r → (r.value_valid = true ↔ 2 ≤ j) := by
  have hstart : SimpsonIntegrator.new (MovingAvgExponential 1) 1 =
        SimpsonIntegrator.new (MovingAvgExponential 1)
          (SimpsonIntegrator.new (MovingAvgExponential 1) 1).dof_ ∨
      ∃ s0, WellFormed s0 ∧
        resetIntegration s0 = some (SimpsonIntegrator.new (MovingAvgExponential 1) 1) :=
    Or.inl rfl
  obtain ⟨rs, hrs, hlen, hval, -⟩ :=
    warmup_lasts_two_cycles (SimpsonIntegrator.new (MovingAvgExponential 1) 1)
      [⟨[1], [0], [], [], 100⟩, ⟨[1], [0], [], [], 100 + 1 / 2⟩, ⟨[1], [0], [], [], 101⟩,
        ⟨[1], [0], [], [], 101 + 1 / 2⟩, ⟨[1], [0], [], [], 102⟩] hstart
      (by
        intro c hc
        simp only [List.mem_cons, List.mem_singleton, List.not_mem_nil, or_false] at hc
        rcases hc with e | e | e | e | e <;> subst e <;> exact ⟨by decide, by decide⟩)
  exact ⟨hstart, rs, hrs, hlen, hval (by decide) (by
    simp only [List.chain'_cons, List.chain'_singleton, and_true]
    norm_num)⟩

end SimpsonIntegrator

/-! ## `TrajectoryProfileGeneratorLin` -/

namespace TrajectoryProfileGeneratorLin

/-- C11: `calculateProfile` fails and yields no output for every request with
`v_max <= 0`, with `a_max <= 0`, or on a generator constructed with
`update_rate <= 0`, whatever the Ramp and Sinoid algorithms would return. -/
theorem calculateProfile_rejects_nonpositive (alg : ProfileAlgorithms)
    (update_rate Se Se_roll Se_pitch Se_yaw : ℚ) (move_lin : MoveLinStruct)
    (h : move_lin.vel ≤ 0 ∨ move_lin.accl ≤ 0 ∨ update_rate ≤ 0) :
    calculateProfile alg (TrajectoryProfileGeneratorLin.new update_rate)
      Se Se_roll Se_pitch Se_yaw move_lin = none := by
  unfold calculateProfile
  rw [if_pos]
  exact h

/-- C11 at 100 Hz for a Ramp request over 1 m with `v_max = 0`, `a_max = 1`, and
algorithms that would succeed. -/
theorem calculateProfile_rejects_nonpositive_witness :
    ((MoveLinStruct.mk 0 1 ProfileType.ramp none).vel ≤ 0 ∨
      (MoveLinStruct.mk 0 1 ProfileType.ramp none).accl ≤ 0 ∨ (100 : ℚ) ≤ 0) ∧
    calculateProfile ProfileAlgorithms.endPoints (TrajectoryProfileGeneratorLin.new 100)
      1 0 0 0 (MoveLinStruct.mk 0 1 ProfileType.ramp none) = none :=
  ⟨Or.inl (le_refl 0),
    calculateProfile_rejects_nonpositive ProfileAlgorithms.endPoints 100 1 0 0 0
      (MoveLinStruct.mk 0 1 ProfileType.ramp none) (Or.inl (le_refl 0))⟩

/-- With positive limits and rate the same request reaches the Ramp algorithm. -/
theorem calculateProfile_dispatches_ramp :
    calculateProfile ProfileAlgorithms.endPoints (TrajectoryProfileGeneratorLin.new 100)
      1 0 0 0 (MoveLinStruct.mk (1 / 2) 1 ProfileType.ramp none) =
    some ([[0, 1]], MoveLinStruct.mk (1 / 2) 1 ProfileType.ramp none) := by
  norm_num [calculateProfile, TrajectoryProfileGeneratorLin.new, ProfileAlgorithms.endPoints]

end TrajectoryProfileGeneratorLin

end CobControl
